import Mathlib

/-
Verification of the okon on-disk B-tree storage engine.

The development shallowly embeds the C++ sources:
  src/lib/sha1_utils.hpp               (hex codec for 20-byte SHA-1 digests)
  src/lib/btree_base.hpp               (page codec and file layout)
  src/lib/btree_sorted_keys_inserter.hpp (bulk builder and finalization)

Bytes are Nat values below 256, machine integers are Nat with explicit
mod-2^32 or mod-256 reductions where overflow matters.  Definitions whose
C++ source is not part of the repository snapshot (btree_node.hpp, the
reader btree.hpp, expected_min_number_of_keys, get_greatest_not_visited_key)
are modelled from the specification and marked as such in their doc
comments.
-/

set_option maxRecDepth 8000

namespace Okon

/-! ## SHA-1 hex codec, from src/lib/sha1_utils.hpp -/

/-- A 20-byte SHA-1 digest; each entry is a byte (a Nat below 256). -/
abbrev sha1_t := List Nat

/-- Embeds char_to_index from src/lib/sha1_utils.hpp.  The argument is the
ASCII code of the character.  The switch subtracts (65 - 58) = 7 for
uppercase hex letters and (97 - 58) = 39 for lowercase ones; the final
subtraction of the code of the digit zero together with the cast to uint8_t
is modelled as adding 208 and reducing mod 256. -/
def char_to_index (c : Nat) : Nat :=
  ((if 65 ≤ c ∧ c ≤ 70 then c - 7 else if 97 ≤ c ∧ c ≤ 102 then c - 39 else c) + 208) % 256

/-- Embeds two_first_chars_to_byte from src/lib/sha1_utils.hpp:
the high nibble is shifted left by four (with the uint8_t truncation)
and combined with the low nibble by bitwise or. -/
def two_first_chars_to_byte (c0 c1 : Nat) : Nat :=
  Nat.lor (char_to_index c0 * 16 % 256) (char_to_index c1)

/-- Embeds string_sha1_to_binary from src/lib/sha1_utils.hpp: the loop
converts consecutive character pairs of the 40-character hex string into
the 20 bytes of the digest. -/
def string_sha1_to_binary (s : List Nat) : sha1_t :=
  (List.range 20).map (fun i => two_first_chars_to_byte (s.getD (2 * i) 0) (s.getD (2 * i + 1) 0))

/-- Embeds the to_char lambda of binary_sha1_to_string: a nibble below ten
becomes a decimal digit character, otherwise an uppercase hex letter. -/
def nibble_to_char (v : Nat) : Nat :=
  if v < 10 then v + 48 else v - 10 + 65

/-- Embeds binary_sha1_to_string from src/lib/sha1_utils.hpp: each byte is
split into its high nibble (byte & 0xf0 shifted right by four) and its low
nibble (byte & 0x0f), and both are rendered with to_char. -/
def binary_sha1_to_string (b : sha1_t) : List Nat :=
  (b.map (fun byte => [nibble_to_char (Nat.land byte 240 / 16), nibble_to_char (Nat.land byte 15)])).flatten

/-- Round-trip of a single byte through the hex codec, checked by
exhausting the 256 byte values. -/
theorem byte_hex_roundtrip :
    ∀ x < 256, two_first_chars_to_byte (nibble_to_char (Nat.land x 240 / 16)) (nibble_to_char (Nat.land x 15)) = x := by
  decide

theorem nibble_to_char_range :
    ∀ v < 16, (48 ≤ nibble_to_char v ∧ nibble_to_char v ≤ 57) ∨
      (65 ≤ nibble_to_char v ∧ nibble_to_char v ≤ 70) := by
  decide

theorem join_pairs_getD (f g : Nat → Nat) (l : List Nat) :
    ∀ i, i < l.length →
      ((l.map (fun x => [f x, g x])).flatten.getD (2 * i) 0 = f (l.getD i 0) ∧
       (l.map (fun x => [f x, g x])).flatten.getD (2 * i + 1) 0 = g (l.getD i 0)) := by
  induction l with
  | nil => intro i hi; simp at hi
  | cons a t ih =>
    intro i hi
    cases i with
    | zero => simp
    | succ j =>
      have hj : j < t.length := by simpa using hi
      have h2 : 2 * (j + 1) = (2 * j + 1) + 1 := by ring
      have h3 : 2 * (j + 1) + 1 = (2 * j + 1 + 1) + 1 := by ring
      constructor
      · rw [h2]; simpa using (ih j hj).1
      · rw [h3]; simpa using (ih j hj).2

theorem nibbles_lt (x : Nat) (hx : x < 256) :
    Nat.land x 240 / 16 < 16 ∧ Nat.land x 15 < 16 := by
  revert hx; revert x; decide

/-- C10: for every 20-byte array b, string_sha1_to_binary inverts
binary_sha1_to_string; binary_sha1_to_string emits only decimal digits and
uppercase hex letters; and char_to_index sends the uppercase and lowercase
form of each hex letter to the same nibble value. -/
theorem c10_hex_codec_roundtrip (b : List Nat) (hlen : b.length = 20) (hb : ∀ x ∈ b, x < 256) :
    string_sha1_to_binary (binary_sha1_to_string b) = b ∧
    (∀ ch ∈ binary_sha1_to_string b, (48 ≤ ch ∧ ch ≤ 57) ∨ (65 ≤ ch ∧ ch ≤ 70)) ∧
    (∀ c, 65 ≤ c → c ≤ 70 → char_to_index c = char_to_index (c + 32)) := by
  refine ⟨?_, ?_, ?_⟩
  · have key := join_pairs_getD (fun x => nibble_to_char (Nat.land x 240 / 16))
      (fun x => nibble_to_char (Nat.land x 15)) b
    apply List.ext_getElem
    · simp [string_sha1_to_binary, hlen]
    · intro i h1 h2
      have hi20 : i < 20 := by simpa [string_sha1_to_binary] using h1
      have hib : i < b.length := by omega
      have hk := key i hib
      have hmem : b.getD i 0 ∈ b := by
        rw [List.getD_eq_getElem b 0 hib]; exact List.getElem_mem hib
      have hlt : b.getD i 0 < 256 := hb _ hmem
      have hrt := byte_hex_roundtrip (b.getD i 0) hlt
      simp only [string_sha1_to_binary, List.getElem_map, List.getElem_range]
      simp only [binary_sha1_to_string]
      rw [hk.1, hk.2, hrt, List.getD_eq_getElem b 0 hib]
  · intro ch hch
    simp only [binary_sha1_to_string, List.mem_flatten, List.mem_map] at hch
    obtain ⟨l, ⟨x, hxb, rfl⟩, hchl⟩ := hch
    have hx := nibbles_lt x (hb x hxb)
    have h1 := nibble_to_char_range _ hx.1
    have h2 := nibble_to_char_range _ hx.2
    simp only [List.mem_cons, List.not_mem_nil, or_false] at hchl
    rcases hchl with rfl | rfl
    · exact h1
    · exact h2
  · intro c h1 h2
    simp only [char_to_index]
    have ha : 65 ≤ c ∧ c ≤ 70 := ⟨h1, h2⟩
    have hbn : ¬(65 ≤ c + 32 ∧ c + 32 ≤ 70) := by omega
    have hc : 97 ≤ c + 32 ∧ c + 32 ≤ 102 := by omega
    rw [if_pos ha, if_neg hbn, if_pos hc]
    omega

/-- Witness for C10 at a concrete 20-byte array. -/
theorem c10_hex_codec_roundtrip_witness :
    string_sha1_to_binary (binary_sha1_to_string (List.replicate 20 171)) = List.replicate 20 171 :=
  (c10_hex_codec_roundtrip (List.replicate 20 171) (by decide) (by decide)).1

/-! ## Page codec and file layout, from src/lib/btree_base.hpp

The node record widths come from the specification (section 3.2): the
sentinel UNUSED and the 4-byte pointer width of btree_node::pointer_t are
modelled from the spec because btree_node.hpp is not part of the source
snapshot.  The byte store models the seek/write and seek/read calls of the
DataStorage capability; bytes are reduced mod 256 on write. -/

/-- Modelled from the spec: the sentinel UNUSED for child and parent
pointers (btree_node.hpp is missing from src); the largest 4-byte unsigned
value. -/
def k_unused_pointer : Nat := 4294967295

/-- The in-memory node record of section 3.2 of the spec and of read_node
and write_node in src/lib/btree_base.hpp. -/
structure btree_node where
  is_leaf : Bool
  keys_count : Nat
  pointers : List Nat
  keys : List sha1_t
  parent_pointer : Nat
  this_pointer : Nat
deriving DecidableEq

def sizeof_order : Nat := 4

/-- Modelled from the spec: pointers are 4-byte unsigned integers. -/
def sizeof_pointer : Nat := 4

/-- Embeds tree_offset from src/lib/btree_base.hpp:
sizeof(m_order) + sizeof(m_root_ptr). -/
def tree_offset : Nat := sizeof_order + sizeof_pointer

/-- Modelled from the spec (section 3.2): (2m+1) pointer slots. -/
def binary_pointers_size (m : Nat) : Nat := (2 * m + 1) * sizeof_pointer

/-- Modelled from the spec (section 3.2): 2m key slots of 20 bytes each. -/
def binary_keys_size (m : Nat) : Nat := 2 * m * 20

/-- Modelled from the spec (section 3.2): total record size. -/
def binary_size (m : Nat) : Nat := 1 + 4 + binary_pointers_size m + binary_keys_size m + 4

/-- Byte offset of the record of node ptr, as computed inside read_node and
write_node of src/lib/btree_base.hpp. -/
def node_place (m ptr : Nat) : Nat := tree_offset + binary_size m * ptr

/-- The random-access byte store consumed by the engine. -/
abbrev ByteStore := Nat → Nat

/-- Writing a byte string at an offset; each byte is truncated to 8 bits. -/
def write_bytes (s : ByteStore) (off : Nat) (bs : List Nat) : ByteStore :=
  fun p => if off ≤ p ∧ p < off + bs.length then bs.getD (p - off) 0 % 256 else s p

/-- Reading len bytes starting at an offset. -/
def read_bytes (s : ByteStore) (off len : Nat) : List Nat :=
  (List.range len).map (fun i => s (off + i))

/-- Little-endian encoding of a 4-byte unsigned integer. -/
def le32 (k : Nat) : List Nat :=
  [k % 256, k / 256 % 256, k / 65536 % 256, k / 16777216 % 256]

/-- Little-endian decoding of a 4-byte unsigned integer. -/
def from_le32 (bs : List Nat) : Nat :=
  bs.getD 0 0 + 256 * bs.getD 1 0 + 65536 * bs.getD 2 0 + 16777216 * bs.getD 3 0

/-- The record as laid out by write_node in src/lib/btree_base.hpp: the
field order on disk is is_leaf, keys_count, pointers, keys,
parent_pointer. -/
def serialize_node (n : btree_node) : List Nat :=
  [if n.is_leaf then 1 else 0] ++ le32 n.keys_count ++ (n.pointers.map le32).flatten
    ++ n.keys.flatten ++ le32 n.parent_pointer

/-- Embeds write_node from src/lib/btree_base.hpp. -/
def write_node (m : Nat) (s : ByteStore) (n : btree_node) : ByteStore :=
  write_bytes s (node_place m n.this_pointer) (serialize_node n)

/-- Embeds read_node from src/lib/btree_base.hpp: reads the five fields in
their on-disk order at the computed offsets and sets this_pointer to the
requested identifier. -/
def read_node (m : Nat) (s : ByteStore) (ptr : Nat) : btree_node :=
  { is_leaf := s (node_place m ptr) != 0,
    keys_count := from_le32 (read_bytes s (node_place m ptr + 1) 4),
    pointers := (List.range (2 * m + 1)).map
      (fun i => from_le32 (read_bytes s (node_place m ptr + (5 + 4 * i)) 4)),
    keys := (List.range (2 * m)).map
      (fun i => read_bytes s (node_place m ptr + (5 + binary_pointers_size m + 20 * i)) 20),
    parent_pointer :=
      from_le32 (read_bytes s (node_place m ptr + (5 + binary_pointers_size m + binary_keys_size m)) 4),
    this_pointer := ptr }

theorem write_bytes_in (s : ByteStore) (off : Nat) (bs : List Nat) (i : Nat) (h : i < bs.length) :
    write_bytes s off bs (off + i) = bs.getD i 0 % 256 := by
  simp only [write_bytes]
  rw [if_pos (by omega)]
  have h2 : off + i - off = i := by omega
  rw [h2]

theorem write_bytes_out (s : ByteStore) (off : Nat) (bs : List Nat) (p : Nat)
    (h : p < off ∨ off + bs.length ≤ p) : write_bytes s off bs p = s p := by
  simp only [write_bytes]
  rw [if_neg (by omega)]

theorem read_bytes_length (s : ByteStore) (off len : Nat) : (read_bytes s off len).length = len := by
  simp [read_bytes]

theorem read_write_slice (s : ByteStore) (off : Nat) (bs : List Nat) (a l : Nat)
    (h : a + l ≤ bs.length) :
    read_bytes (write_bytes s off bs) (off + a) l = ((bs.drop a).take l).map (· % 256) := by
  apply List.ext_getElem
  · simp [read_bytes]; omega
  · intro i h1 h2
    simp only [read_bytes, List.getElem_map, List.getElem_range]
    have hi : i < l := by simpa [read_bytes] using h1
    have : off + a + i = off + (a + i) := by omega
    rw [this, write_bytes_in s off bs (a + i) (by omega)]
    rw [List.getElem_take, List.getElem_drop]
    rw [List.getD_eq_getElem bs 0 (by omega)]

theorem slice_at (pre mid post : List Nat) :
    ((pre ++ mid ++ post).drop pre.length).take mid.length = mid := by
  rw [List.append_assoc, List.drop_left, List.take_left]

theorem map_mod_id (bs : List Nat) (h : ∀ b ∈ bs, b < 256) : bs.map (· % 256) = bs := by
  induction bs with
  | nil => rfl
  | cons a t ih =>
    simp only [List.map_cons]
    rw [Nat.mod_eq_of_lt (h a (by simp)), ih (fun b hb => h b (by simp [hb]))]

theorem le32_length (k : Nat) : (le32 k).length = 4 := rfl

theorem le32_lt (k : Nat) : ∀ b ∈ le32 k, b < 256 := by
  intro b hb
  simp only [le32, List.mem_cons, List.not_mem_nil, or_false] at hb
  rcases hb with rfl | rfl | rfl | rfl <;> exact Nat.mod_lt _ (by omega)

theorem from_le32_le32 (k : Nat) (h : k < 4294967296) : from_le32 (le32 k) = k := by
  show k % 256 + 256 * (k / 256 % 256) + 65536 * (k / 65536 % 256) + 16777216 * (k / 16777216 % 256) = k
  omega

theorem flatten_map_length {α : Type} (f : α → List Nat) (c : Nat) (l : List α)
    (h : ∀ x ∈ l, (f x).length = c) : (l.map f).flatten.length = c * l.length := by
  induction l with
  | nil => simp
  | cons a t ih =>
    simp only [List.map_cons, List.flatten_cons, List.length_append]
    rw [h a (by simp), ih (fun x hx => h x (by simp [hx]))]
    simp only [List.length_cons]
    ring

theorem flatten_length_const (l : List (List Nat)) (c : Nat) (h : ∀ x ∈ l, x.length = c) :
    l.flatten.length = c * l.length := by
  have h2 := flatten_map_length id c l h
  simpa using h2

theorem flatten_map_decomp {α : Type} (f : α → List Nat) (l : List α) (i : Nat)
    (hi : i < l.length) :
    (l.map f).flatten =
      ((l.take i).map f).flatten ++ f (l.get ⟨i, hi⟩) ++ ((l.drop (i + 1)).map f).flatten := by
  have hdec : l = l.take i ++ l.get ⟨i, hi⟩ :: l.drop (i + 1) := by
    conv_lhs => rw [← List.take_append_drop i l]
    rw [← List.getElem_cons_drop l i hi]
    rfl
  conv_lhs => rw [hdec]
  rw [List.map_append, List.flatten_append, List.map_cons, List.flatten_cons, List.append_assoc]

theorem serialize_node_length (m : Nat) (n : btree_node)
    (hp : n.pointers.length = 2 * m + 1) (hk : n.keys.length = 2 * m)
    (hkl : ∀ k ∈ n.keys, k.length = 20) :
    (serialize_node n).length = binary_size m := by
  simp only [serialize_node, List.length_append, List.length_cons, List.length_nil]
  rw [flatten_map_length le32 4 _ (fun x _ => le32_length x),
    flatten_length_const _ 20 hkl, hp, hk]
  simp only [le32_length, binary_size, binary_pointers_size, binary_keys_size, sizeof_pointer]
  ring

/-- C6: the page codec round-trips: writing a well-formed node record and
reading it back at its identifier recovers every logical field.  The
well-formedness captures the fixed C++ widths: 2m+1 pointer slots, 2m key
slots of 20 bytes each, bytes below 256, and 4-byte unsigned integers. -/
theorem c6_page_codec_roundtrip (m : Nat) (s : ByteStore) (n : btree_node)
    (hp : n.pointers.length = 2 * m + 1) (hk : n.keys.length = 2 * m)
    (hkl : ∀ k ∈ n.keys, k.length = 20)
    (hkb : ∀ k ∈ n.keys, ∀ b ∈ k, b < 256)
    (hkc : n.keys_count < 4294967296)
    (hpb : ∀ p ∈ n.pointers, p < 4294967296)
    (hpar : n.parent_pointer < 4294967296) :
    read_node m (write_node m s n) n.this_pointer = n := by
  have hlen := serialize_node_length m n hp hk hkl
  have extract : ∀ pre mid post : List Nat, serialize_node n = pre ++ mid ++ post →
      (∀ b ∈ mid, b < 256) →
      read_bytes (write_node m s n) (node_place m n.this_pointer + pre.length) mid.length = mid := by
    intro pre mid post hdec hmid
    have hle : pre.length + mid.length ≤ (serialize_node n).length := by
      rw [hdec]; simp [List.length_append]
    rw [write_node, read_write_slice s _ _ pre.length mid.length hle]
    rw [hdec, slice_at, map_mod_id mid hmid]
  have hleaf : write_node m s n (node_place m n.this_pointer) =
      ((if n.is_leaf then 1 else 0) : Nat) % 256 := by
    have h0 := write_bytes_in s (node_place m n.this_pointer) (serialize_node n) 0
      (by rw [hlen]; unfold binary_size; omega)
    simpa [write_node, serialize_node] using h0
  have hkcf : read_bytes (write_node m s n) (node_place m n.this_pointer + 1) 4 =
      le32 n.keys_count := by
    have hdec : serialize_node n = [if n.is_leaf then (1 : Nat) else 0] ++ le32 n.keys_count ++
        ((n.pointers.map le32).flatten ++ n.keys.flatten ++ le32 n.parent_pointer) := by
      simp [serialize_node, List.append_assoc]
    have hx := extract _ _ _ hdec (le32_lt _)
    simpa [le32_length] using hx
  have hptr : ∀ i (hi : i < n.pointers.length),
      read_bytes (write_node m s n) (node_place m n.this_pointer + (5 + 4 * i)) 4 =
        le32 (n.pointers.get ⟨i, hi⟩) := by
    intro i hi
    have hflat := flatten_map_decomp le32 n.pointers i hi
    have hdec : serialize_node n =
        ([if n.is_leaf then (1 : Nat) else 0] ++ le32 n.keys_count ++
          ((n.pointers.take i).map le32).flatten)
        ++ le32 (n.pointers.get ⟨i, hi⟩)
        ++ (((n.pointers.drop (i + 1)).map le32).flatten ++ n.keys.flatten ++
          le32 n.parent_pointer) := by
      simp only [serialize_node]
      rw [hflat]
      simp [List.append_assoc]
    have hprelen : ([if n.is_leaf then (1 : Nat) else 0] ++ le32 n.keys_count ++
        ((n.pointers.take i).map le32).flatten).length = 5 + 4 * i := by
      simp only [List.length_append, List.length_cons, List.length_nil, le32_length]
      rw [flatten_map_length le32 4 _ (fun x _ => le32_length x), List.length_take]
      omega
    have hx := extract _ _ _ hdec (le32_lt _)
    rw [hprelen, le32_length] at hx
    exact hx
  have hkey : ∀ i (hi : i < n.keys.length),
      read_bytes (write_node m s n)
        (node_place m n.this_pointer + (5 + binary_pointers_size m + 20 * i)) 20 =
        n.keys.get ⟨i, hi⟩ := by
    intro i hi
    have hflat := flatten_map_decomp id n.keys i hi
    have hdec : serialize_node n =
        ([if n.is_leaf then (1 : Nat) else 0] ++ le32 n.keys_count ++
          (n.pointers.map le32).flatten ++ (n.keys.take i).flatten)
        ++ n.keys.get ⟨i, hi⟩
        ++ ((n.keys.drop (i + 1)).flatten ++ le32 n.parent_pointer) := by
      simp only [serialize_node]
      have hkeysflat : n.keys.flatten =
          (n.keys.take i).flatten ++ n.keys.get ⟨i, hi⟩ ++ (n.keys.drop (i + 1)).flatten := by
        have h2 := hflat
        simpa using h2
      rw [hkeysflat]
      simp [List.append_assoc]
    have hprelen : ([if n.is_leaf then (1 : Nat) else 0] ++ le32 n.keys_count ++
        (n.pointers.map le32).flatten ++ (n.keys.take i).flatten).length =
        5 + binary_pointers_size m + 20 * i := by
      simp only [List.length_append, List.length_cons, List.length_nil, le32_length]
      rw [flatten_map_length le32 4 _ (fun x _ => le32_length x),
        flatten_length_const _ 20 (fun x hx => hkl x (List.mem_of_mem_take hx)),
        List.length_take, hp]
      unfold binary_pointers_size sizeof_pointer
      omega
    have hmidlen : (n.keys.get ⟨i, hi⟩).length = 20 := hkl _ (n.keys.get_mem i hi)
    have hx := extract _ _ _ hdec (fun b hb => hkb _ (n.keys.get_mem i hi) b hb)
    rw [hprelen, hmidlen] at hx
    exact hx
  have hparf : read_bytes (write_node m s n)
      (node_place m n.this_pointer + (5 + binary_pointers_size m + binary_keys_size m)) 4 =
      le32 n.parent_pointer := by
    have hdec : serialize_node n =
        ([if n.is_leaf then (1 : Nat) else 0] ++ le32 n.keys_count ++
          (n.pointers.map le32).flatten ++ n.keys.flatten)
        ++ le32 n.parent_pointer ++ [] := by
      simp [serialize_node, List.append_assoc]
    have hprelen : ([if n.is_leaf then (1 : Nat) else 0] ++ le32 n.keys_count ++
        (n.pointers.map le32).flatten ++ n.keys.flatten).length =
        5 + binary_pointers_size m + binary_keys_size m := by
      simp only [List.length_append, List.length_cons, List.length_nil, le32_length]
      rw [flatten_map_length le32 4 _ (fun x _ => le32_length x),
        flatten_length_const _ 20 hkl, hp, hk]
      unfold binary_pointers_size binary_keys_size sizeof_pointer
      omega
    have hx := extract _ _ _ hdec (le32_lt _)
    rw [hprelen, le32_length] at hx
    exact hx
  obtain ⟨il, kc, ps, ks, pp, tp⟩ := n
  simp only [read_node, btree_node.mk.injEq]
  refine ⟨?_, ?_, ?_, ?_, ?_, trivial⟩
  · rw [hleaf]
    cases il <;> simp
  · rw [hkcf]
    exact from_le32_le32 _ hkc
  · apply List.ext_getElem
    · simpa using hp.symm
    · intro i h1 h2
      simp only [List.getElem_map, List.getElem_range]
      rw [hptr i h2, from_le32_le32 _ (hpb _ (ps.get_mem i h2))]
      rfl
  · apply List.ext_getElem
    · simpa using hk.symm
    · intro i h1 h2
      simp only [List.getElem_map, List.getElem_range]
      rw [hkey i h2]
      rfl
  · rw [hparf]
    exact from_le32_le32 _ hpar

/-- Witness for C6 at a concrete order-1 node and the all-zero store. -/
theorem c6_page_codec_roundtrip_witness :
    read_node 1 (write_node 1 (fun _ => 0)
      ⟨true, 1, [7, k_unused_pointer, k_unused_pointer],
        [List.replicate 20 3, List.replicate 20 4], k_unused_pointer, 2⟩) 2 =
      ⟨true, 1, [7, k_unused_pointer, k_unused_pointer],
        [List.replicate 20 3, List.replicate 20 4], k_unused_pointer, 2⟩ :=
  c6_page_codec_roundtrip 1 (fun _ => 0) _ (by decide) (by decide) (by decide) (by decide)
    (by decide) (by decide) (by decide)

theorem read_bytes_congr (s s2 : ByteStore) (off len : Nat)
    (h : ∀ i, i < len → s (off + i) = s2 (off + i)) :
    read_bytes s off len = read_bytes s2 off len := by
  apply List.ext_getElem
  · simp [read_bytes]
  · intro i h1 h2
    simp only [read_bytes, List.getElem_map, List.getElem_range]
    exact h i (by simpa [read_bytes] using h1)

theorem write_node_segment (m : Nat) (s : ByteStore) (n : btree_node)
    (pre mid post : List Nat) (hdec : serialize_node n = pre ++ mid ++ post)
    (hmid : ∀ b ∈ mid, b < 256) :
    read_bytes (write_node m s n) (node_place m n.this_pointer + pre.length) mid.length = mid := by
  have hle : pre.length + mid.length ≤ (serialize_node n).length := by
    rw [hdec]; simp [List.length_append]
  rw [write_node, read_write_slice s _ _ pre.length mid.length hle]
  rw [hdec, slice_at, map_mod_id mid hmid]

/-- C7: read_node and write_node address the record of node k at byte
offset tree_offset + k * binary_size(m), tree_offset is 4 plus the pointer
width, writes stay inside that record, reads depend only on it, and the
on-disk field order is exactly is_leaf, keys_count, pointers, keys,
parent_pointer (each field readable as a contiguous segment at its
cumulative offset). -/
theorem c7_file_layout (m : Nat) (s s2 : ByteStore) (n : btree_node) (k : Nat)
    (hp : n.pointers.length = 2 * m + 1) (hk : n.keys.length = 2 * m)
    (hkl : ∀ key ∈ n.keys, key.length = 20)
    (hkb : ∀ key ∈ n.keys, ∀ b ∈ key, b < 256) :
    tree_offset = 4 + sizeof_pointer ∧
    node_place m k = tree_offset + k * binary_size m ∧
    (∀ p, p < node_place m n.this_pointer ∨ node_place m n.this_pointer + binary_size m ≤ p →
      write_node m s n p = s p) ∧
    ((∀ i, i < binary_size m → s (node_place m k + i) = s2 (node_place m k + i)) →
      read_node m s k = read_node m s2 k) ∧
    write_node m s n (node_place m n.this_pointer) = (if n.is_leaf then 1 else 0) ∧
    read_bytes (write_node m s n) (node_place m n.this_pointer + 1) 4 = le32 n.keys_count ∧
    read_bytes (write_node m s n) (node_place m n.this_pointer + 5) (binary_pointers_size m) =
      (n.pointers.map le32).flatten ∧
    read_bytes (write_node m s n) (node_place m n.this_pointer + (5 + binary_pointers_size m))
      (binary_keys_size m) = n.keys.flatten ∧
    read_bytes (write_node m s n)
      (node_place m n.this_pointer + (5 + binary_pointers_size m + binary_keys_size m)) 4 =
      le32 n.parent_pointer := by
  have hlen := serialize_node_length m n hp hk hkl
  have hps : ((n.pointers.map le32).flatten).length = binary_pointers_size m := by
    rw [flatten_map_length le32 4 _ (fun x _ => le32_length x), hp]
    unfold binary_pointers_size sizeof_pointer
    ring
  have hks : (n.keys.flatten).length = binary_keys_size m := by
    rw [flatten_length_const _ 20 hkl, hk]
    unfold binary_keys_size
    ring
  refine ⟨rfl, ?_, ?_, ?_, ?_, ?_, ?_, ?_, ?_⟩
  · unfold node_place
    ring
  · intro p hplace
    rw [write_node]
    exact write_bytes_out s _ _ p (by rw [hlen]; exact hplace)
  · intro hagree
    have hfield : ∀ a l, a + l ≤ binary_size m →
        read_bytes s (node_place m k + a) l = read_bytes s2 (node_place m k + a) l := by
      intro a l hal
      apply read_bytes_congr
      intro i hi
      have h3 : node_place m k + a + i = node_place m k + (a + i) := by omega
      rw [h3]
      exact hagree (a + i) (by omega)
    have hsz : 9 + binary_pointers_size m + binary_keys_size m = binary_size m := by
      unfold binary_size; omega
    have hpsz : 4 * m + 4 ≤ binary_pointers_size m := by
      unfold binary_pointers_size sizeof_pointer; omega
    simp only [read_node, btree_node.mk.injEq]
    refine ⟨?_, ?_, ?_, ?_, ?_, trivial⟩
    · have h0 : s (node_place m k) = s2 (node_place m k) := by
        simpa using hagree 0 (by unfold binary_size; omega)
      rw [h0]
    · rw [hfield 1 4 (by omega)]
    · apply List.map_congr_left
      intro i hi
      have hi2 : i < 2 * m + 1 := by simpa using hi
      rw [hfield (5 + 4 * i) 4 (by unfold binary_pointers_size sizeof_pointer at *; omega)]
    · apply List.map_congr_left
      intro i hi
      have hi2 : i < 2 * m := by simpa using hi
      rw [hfield (5 + binary_pointers_size m + 20 * i) 20
        (by unfold binary_keys_size at *; omega)]
    · rw [hfield (5 + binary_pointers_size m + binary_keys_size m) 4 (by omega)]
  · have h0 := write_bytes_in s (node_place m n.this_pointer) (serialize_node n) 0
      (by rw [hlen]; unfold binary_size; omega)
    have h1 : write_node m s n (node_place m n.this_pointer) =
        ((if n.is_leaf then 1 else 0) : Nat) % 256 := by
      simpa [write_node, serialize_node] using h0
    rw [h1]
    cases n.is_leaf <;> simp
  · have hdec : serialize_node n = [if n.is_leaf then (1 : Nat) else 0] ++ le32 n.keys_count ++
        ((n.pointers.map le32).flatten ++ n.keys.flatten ++ le32 n.parent_pointer) := by
      simp [serialize_node, List.append_assoc]
    have hx := write_node_segment m s n _ _ _ hdec (le32_lt _)
    simpa [le32_length] using hx
  · have hdec : serialize_node n = ([if n.is_leaf then (1 : Nat) else 0] ++ le32 n.keys_count) ++
        (n.pointers.map le32).flatten ++ (n.keys.flatten ++ le32 n.parent_pointer) := by
      simp [serialize_node, List.append_assoc]
    have hx := write_node_segment m s n _ _ _ hdec (by
      intro b hb
      simp only [List.mem_flatten, List.mem_map] at hb
      obtain ⟨l, ⟨x, hxmem, rfl⟩, hbl⟩ := hb
      exact le32_lt x b hbl)
    rw [hps] at hx
    have hpre : ([if n.is_leaf then (1 : Nat) else 0] ++ le32 n.keys_count).length = 5 := by
      simp [le32_length]
    rw [hpre] at hx
    exact hx
  · have hdec : serialize_node n = ([if n.is_leaf then (1 : Nat) else 0] ++ le32 n.keys_count ++
        (n.pointers.map le32).flatten) ++ n.keys.flatten ++ le32 n.parent_pointer := by
      simp [serialize_node, List.append_assoc]
    have hx := write_node_segment m s n _ _ _ hdec (by
      intro b hb
      simp only [List.mem_flatten] at hb
      obtain ⟨l, hl, hbl⟩ := hb
      exact hkb l hl b hbl)
    rw [hks] at hx
    have hpre : ([if n.is_leaf then (1 : Nat) else 0] ++ le32 n.keys_count ++
        (n.pointers.map le32).flatten).length = 5 + binary_pointers_size m := by
      simp only [List.length_append, List.length_cons, List.length_nil, le32_length, hps]
    rw [hpre] at hx
    exact hx
  · have hdec : serialize_node n = ([if n.is_leaf then (1 : Nat) else 0] ++ le32 n.keys_count ++
        (n.pointers.map le32).flatten ++ n.keys.flatten) ++ le32 n.parent_pointer ++ [] := by
      simp [serialize_node, List.append_assoc]
    have hx := write_node_segment m s n _ _ _ hdec (le32_lt _)
    have hpre : ([if n.is_leaf then (1 : Nat) else 0] ++ le32 n.keys_count ++
        (n.pointers.map le32).flatten ++ n.keys.flatten).length =
        5 + binary_pointers_size m + binary_keys_size m := by
      simp only [List.length_append, List.length_cons, List.length_nil, le32_length, hps, hks]
    rw [hpre, le32_length] at hx
    exact hx

/-- Witness for C7 at order 1, node identifier 2, and the all-zero store. -/
theorem c7_file_layout_witness :
    node_place 1 2 = tree_offset + 2 * binary_size 1 ∧
    read_bytes (write_node 1 (fun _ => 0)
      ⟨true, 1, [7, k_unused_pointer, k_unused_pointer],
        [List.replicate 20 3, List.replicate 20 4], k_unused_pointer, 2⟩)
      (node_place 1 2 + 1) 4 = le32 1 :=
  ⟨(c7_file_layout 1 (fun _ => 0) (fun _ => 0)
      ⟨true, 1, [7, k_unused_pointer, k_unused_pointer],
        [List.replicate 20 3, List.replicate 20 4], k_unused_pointer, 2⟩ 2
      (by decide) (by decide) (by decide) (by decide)).2.1,
   (c7_file_layout 1 (fun _ => 0) (fun _ => 0)
      ⟨true, 1, [7, k_unused_pointer, k_unused_pointer],
        [List.replicate 20 3, List.replicate 20 4], k_unused_pointer, 2⟩ 2
      (by decide) (by decide) (by decide) (by decide)).2.2.2.2.2.1⟩

/-! ## Bulk builder, from src/lib/btree_sorted_keys_inserter.hpp

The builder is modelled against a node-granular store; the byte-level page
codec is proven faithful separately (C6 and C7).  Helpers from the missing
btree_node.hpp and the missing reader btree.hpp are modelled from the
specification and say so in their doc comments. -/

/-- Modelled from the spec (section 4.3.7): expected_min_number_of_keys is
absent from the source snapshot; the minimum is the order m. -/
def expected_min_number_of_keys (m : Nat) : Nat := m

/-- Modelled from the spec: is_full of the missing btree_node.hpp; a node
is full when it holds the maximum of 2m keys. -/
def btree_node.is_full (n : btree_node) (m : Nat) : Bool := n.keys_count == 2 * m

/-- Modelled from the spec: push_back of the missing btree_node.hpp
appends a key after the live prefix and increments keys_count. -/
def btree_node.push_back (n : btree_node) (key : sha1_t) : btree_node :=
  { n with keys := n.keys.set n.keys_count key, keys_count := n.keys_count + 1 }

/-- Modelled from the spec (section 4.3.3 step 4): under the sorted-stream
precondition insert places the key as the new rightmost key, which is
push_back. -/
def btree_node.insert (n : btree_node) (key : sha1_t) : btree_node := n.push_back key

/-- Modelled from the spec (section 4.2): the rightmost live child is
pointers[keys_count]. -/
def btree_node.rightmost_pointer (n : btree_node) : Nat :=
  n.pointers.getD n.keys_count k_unused_pointer

/-- Modelled from the spec (section 3.2): the number of live (non-UNUSED)
child pointers. -/
def btree_node.children_count (n : btree_node) : Nat :=
  n.pointers.countP (fun p => p != k_unused_pointer)

/-- Modelled from the spec: the btree_node constructor taking the order and
the parent pointer; every pointer slot starts UNUSED and every key slot
zeroed. -/
def mk_node (m parent : Nat) : btree_node :=
  { is_leaf := false, keys_count := 0,
    pointers := List.replicate (2 * m + 1) k_unused_pointer,
    keys := List.replicate (2 * m) (List.replicate 20 0),
    parent_pointer := parent, this_pointer := k_unused_pointer }

/-- Node records on disk, at node granularity. -/
abbrev NodeDisk := Nat → Option btree_node

/-- Writing the record of a node at its identifier. -/
def disk_write (d : NodeDisk) (n : btree_node) : NodeDisk :=
  fun p => if p = n.this_pointer then some n else d p

/-- Reading a record; read_node of btree_base.hpp overwrites this_pointer
with the requested identifier. -/
def disk_read (d : NodeDisk) (ptr : Nat) : Option btree_node :=
  (d ptr).map (fun n => { n with this_pointer := ptr })

/-- The builder state of src/lib/btree_sorted_keys_inserter.hpp together
with the btree_base state (order, m_root_ptr) and the store.  The back of
the C++ m_current_path vector is the head of the list here.  The field
root_ptr_written records whether set_root_ptr has ever written the header
root-pointer region (C9).  The m_visited_nodes member is omitted: it is
only touched by the dead helpers get_rightmost_not_visited_node and
get_rightmost_not_visited_node2, which no live code path calls. -/
structure btree_sorted_keys_inserter where
  order : Nat
  m_next_node_ptr : Nat
  m_current_path : List btree_node
  m_tree_height : Nat
  m_root_ptr : Nat
  root_ptr_written : Bool
  disk : NodeDisk
  m_nodes_created_during_rebalancing : List Nat
  m_keys_took_by_provider : Nat → Nat

/-- Embeds the btree_sorted_keys_inserter constructor: the base constructor
persists only the order; the root is allocated first (so it receives
identifier 0), marked leaf, and pushed on the path; m_root_ptr defaults to
0 with the header root-pointer region unwritten. -/
def mk_inserter (m : Nat) : btree_sorted_keys_inserter :=
  { order := m, m_next_node_ptr := 1,
    m_current_path := [{ mk_node m k_unused_pointer with this_pointer := 0, is_leaf := true }],
    m_tree_height := 1, m_root_ptr := 0, root_ptr_written := false,
    disk := fun _ => none,
    m_nodes_created_during_rebalancing := [],
    m_keys_took_by_provider := fun _ => 0 }

/-- One step of create_children_till_leaf: allocate a child of the
back-of-path node, set the parent slot pointers[keys_count] to it, and push
it on the path. -/
def add_child (st : btree_sorted_keys_inserter) (leaf_level : Bool) :
    btree_sorted_keys_inserter :=
  match st.m_current_path with
  | [] => st
  | parent :: rest =>
    { st with
      m_next_node_ptr := st.m_next_node_ptr + 1
      m_current_path :=
        { mk_node st.order parent.this_pointer with
          this_pointer := st.m_next_node_ptr, keys_count := 0, is_leaf := leaf_level } ::
        { parent with
          pointers := parent.pointers.set parent.keys_count st.m_next_node_ptr } :: rest }

/-- Embeds create_children_till_leaf from
src/lib/btree_sorted_keys_inserter.hpp: appends a chain of fresh empty
children, the last of which (level 0) is a leaf. -/
def create_children_till_leaf (st : btree_sorted_keys_inserter) :
    Nat → btree_sorted_keys_inserter
  | 0 => add_child st true
  | level + 1 => create_children_till_leaf (add_child st false) level

/-- Embeds split_root_and_grow from src/lib/btree_sorted_keys_inserter.hpp. -/
def split_root_and_grow (st : btree_sorted_keys_inserter) (sha1 : sha1_t) (level : Nat) :
    btree_sorted_keys_inserter :=
  match st.m_current_path with
  | [] => st
  | root :: rest =>
    let new_root_ptr := st.m_next_node_ptr
    let n1 := (mk_node st.order k_unused_pointer).insert sha1
    let st2 := create_children_till_leaf
      { st with
        m_next_node_ptr := new_root_ptr + 1
        disk := disk_write st.disk { root with parent_pointer := new_root_ptr }
        m_current_path :=
          { n1 with
            pointers := n1.pointers.set 0 root.this_pointer
            this_pointer := new_root_ptr
            is_leaf := false } :: rest } level
    { st2 with
      m_root_ptr := new_root_ptr
      root_ptr_written := true
      m_tree_height := st2.m_tree_height + 1 }

/-- Embeds split_node from src/lib/btree_sorted_keys_inserter.hpp: at the
root it grows the tree; otherwise it flushes and pops the back-of-path
node, recurses one level up if the parent is full too, and otherwise
inserts the key into the parent and materializes the fresh rightmost
spine.  The C++ recursion pops one path element per call; the fuel is the
path length at entry, which bounds the depth exactly. -/
def split_node_fueled (fuel : Nat) (st : btree_sorted_keys_inserter) (sha1 : sha1_t)
    (level : Nat) : btree_sorted_keys_inserter :=
  match fuel with
  | 0 => st
  | fuel2 + 1 =>
    match st.m_current_path with
    | [] => st
    | [_] => split_root_and_grow st sha1 level
    | node :: parent :: rest =>
      if parent.is_full st.order then
        split_node_fueled fuel2 { st with
          disk := disk_write st.disk node
          m_current_path := parent :: rest } sha1 (level + 1)
      else
        create_children_till_leaf { st with
          disk := disk_write st.disk node
          m_current_path := parent.insert sha1 :: rest } level

/-- split_node with the exact recursion-depth bound as fuel. -/
def split_node (st : btree_sorted_keys_inserter) (sha1 : sha1_t) (level : Nat) :
    btree_sorted_keys_inserter :=
  split_node_fueled st.m_current_path.length st sha1 level

/-- Embeds insert_sorted from src/lib/btree_sorted_keys_inserter.hpp. -/
def insert_sorted (st : btree_sorted_keys_inserter) (sha1 : sha1_t) :
    btree_sorted_keys_inserter :=
  match st.m_current_path with
  | [] => st
  | node :: rest =>
    if node.is_full st.order then split_node st sha1 0
    else { st with m_current_path := node.push_back sha1 :: rest }

/-- The first step of finalize_inserting: flush every node still on the
path (the C++ loop runs from the root end). -/
def flush_path (st : btree_sorted_keys_inserter) : btree_sorted_keys_inserter :=
  { st with disk := st.m_current_path.reverse.foldl disk_write st.disk }

/-- The allocation loop of create_nodes_to_fulfill_b_tree: count children
are created at indices idx, idx+1, ...; each is registered in
m_nodes_created_during_rebalancing, written to disk, linked into the
in-memory parent node, and recursed into (through rec3, the fulfillment
pass one level deeper) when it is not a leaf. -/
def fulfill_children
    (rec3 : btree_sorted_keys_inserter → Nat → Nat → btree_sorted_keys_inserter)
    (st : btree_sorted_keys_inserter) (node : btree_node)
    (children_are_leafs : Bool) (level idx count : Nat) :
    btree_sorted_keys_inserter × btree_node :=
  match count with
  | 0 => (st, node)
  | count2 + 1 =>
    let child_ptr := st.m_next_node_ptr
    let child := { mk_node st.order node.this_pointer with
      this_pointer := child_ptr, keys_count := 0, is_leaf := children_are_leafs }
    let st1 := { st with
      m_next_node_ptr := child_ptr + 1
      m_nodes_created_during_rebalancing :=
        child_ptr :: st.m_nodes_created_during_rebalancing
      disk := disk_write st.disk child }
    let st2 := if children_are_leafs then st1 else rec3 st1 child_ptr (level + 1)
    fulfill_children rec3 st2 { node with pointers := node.pointers.set idx child_ptr }
      children_are_leafs level (idx + 1) count2

/-- Embeds create_nodes_to_fulfill_b_tree from
src/lib/btree_sorted_keys_inserter.hpp.  At the root only the rightmost
child is visited; a non-root interior node whose keys_count is below
m+1 gets fresh children allocated by the loop, which starts at index
children_count()-1 and runs while the index is below m+1.  When
children_count() is 0 the C++ unsigned subtraction wraps around, the loop
condition is immediately false and the body never runs; the node is still
rewritten.  The fuel models the C++ recursion stack and exceeds the tree
height at every live call site. -/
def create_nodes_to_fulfill_b_tree (st : btree_sorted_keys_inserter)
    (current_node_ptr level : Nat) : Nat → btree_sorted_keys_inserter
  | 0 => st
  | fuel2 + 1 =>
    match disk_read st.disk current_node_ptr with
    | none => st
    | some node =>
      if node.is_leaf then st
      else if current_node_ptr = st.m_root_ptr then
        create_nodes_to_fulfill_b_tree st node.rightmost_pointer (level + 1) fuel2
      else if expected_min_number_of_keys st.order + 1 ≤ node.keys_count then st
      else if node.children_count = 0 then
        { st with disk := disk_write st.disk node }
      else
        let res := fulfill_children
          (fun s p l => create_nodes_to_fulfill_b_tree s p l fuel2)
          st node (level + 1 == st.m_tree_height) level
          (node.children_count - 1)
          (expected_min_number_of_keys st.order + 1 - (node.children_count - 1))
        { res.1 with disk := disk_write res.1.disk res.2 }

/-- Embeds get_number_of_keys_taken_from_node_during_rebalance: a node
absent from the m_keys_took_by_provider map has had no keys taken. -/
def get_number_of_keys_taken_from_node_during_rebalance
    (st : btree_sorted_keys_inserter) (node : btree_node) : Nat :=
  st.m_keys_took_by_provider node.this_pointer

/-- Embeds get_number_of_keys_in_node_during_rebalance. -/
def get_number_of_keys_in_node_during_rebalance
    (st : btree_sorted_keys_inserter) (node : btree_node) : Nat :=
  node.keys_count - get_number_of_keys_taken_from_node_during_rebalance st node

/-- Byte-wise memcmp ordering of keys (section 3.1 of the spec). -/
def mem_lt : sha1_t → sha1_t → Bool
  | [], [] => false
  | [], _ :: _ => true
  | _ :: _, [] => false
  | a :: as, b :: bs => if a < b then true else if b < a then false else mem_lt as bs

/-- The last key of a donor that is still live after the keys already
taken from it are suppressed; none when the donor is exhausted. -/
def last_effective_key (st : btree_sorted_keys_inserter) (n : btree_node) : Option sha1_t :=
  let eff := get_number_of_keys_in_node_during_rebalance st n
  if eff = 0 then none else n.keys[eff - 1]?

/-- Donor candidates for get_greatest_not_visited_key: every record on
disk other than the recipient, excluding nodes created during rebalancing
(the spec treats synthetic subtrees as empty donors), that still has a
live key to lend. -/
def donor_candidates (st : btree_sorted_keys_inserter) (recipient : Nat) :
    List (Nat × sha1_t) :=
  (List.range st.m_next_node_ptr).filterMap (fun p =>
    if p = recipient ∨ p ∈ st.m_nodes_created_during_rebalancing then none
    else match disk_read st.disk p with
      | none => none
      | some n => match last_effective_key st n with
        | none => none
        | some k => some (p, k))

def pick_greatest : List (Nat × sha1_t) → Option (Nat × sha1_t)
  | [] => none
  | c :: rest =>
    match pick_greatest rest with
    | none => some c
    | some best => if mem_lt best.2 c.2 then some c else some best

/-- Modelled from the spec (section 4.3.6): get_greatest_not_visited_key
is absent from the source snapshot.  The spec contract: walk the flushed
nodes other than the recipient right-to-left, take the last live key of
the donor holding the greatest such key, and track the count lent via
m_keys_took_by_provider.  The key is lent, not deleted: the donor record
itself is not touched here.  Returns the key and the updated map. -/
def get_greatest_not_visited_key (st : btree_sorted_keys_inserter) (recipient : Nat) :
    sha1_t × (Nat → Nat) :=
  match pick_greatest (donor_candidates st recipient) with
  | none => (List.replicate 20 0, st.m_keys_took_by_provider)
  | some c =>
    (c.2, fun q => if q = c.1 then st.m_keys_took_by_provider q + 1
                   else st.m_keys_took_by_provider q)

/-- The descending slot indices m-1, m-2, ..., nk of the rebalance loop.
When nk is 0 the C++ unsigned loop counter would wrap after slot 0 and
index the pointer vector out of bounds; the model stops after slot 0. -/
def desc_slots (mm nk : Nat) : List Nat := (List.range' nk (mm - nk)).reverse

/-- The slot loop of rebalance_keys_in_node: rec2 is the rebalance pass
one level deeper. -/
def rebalance_slots
    (rec2 : btree_sorted_keys_inserter → btree_node → btree_sorted_keys_inserter)
    (st : btree_sorted_keys_inserter) (node : btree_node)
    (children_are_leafs : Bool) (slots : List Nat) :
    btree_sorted_keys_inserter × btree_node × Bool :=
  match slots with
  | [] => (st, node, children_are_leafs)
  | key_index :: rest =>
    let step :=
      if children_are_leafs then (st, true)
      else
        match disk_read st.disk (node.pointers.getD key_index k_unused_pointer) with
        | none => (st, children_are_leafs)
        | some child =>
          if child.is_leaf then (st, true)
          else (rec2 st child, children_are_leafs)
    let got := get_greatest_not_visited_key step.1 node.this_pointer
    rebalance_slots rec2 { step.1 with m_keys_took_by_provider := got.2 }
      { node with keys := node.keys.set key_index got.1 } step.2 rest

/-- Embeds rebalance_keys_in_node from
src/lib/btree_sorted_keys_inserter.hpp: a non-leaf node short of the
minimum is topped up slot by slot from m-1 down to its effective key
count, recursing into the child at each slot until a leaf child is seen,
then the node (with keys_count set to the minimum) is written; donors are
never rewritten.  The fuel models the C++ recursion stack and exceeds the
tree height at every live call site. -/
def rebalance_keys_in_node (st : btree_sorted_keys_inserter) (node : btree_node) :
    Nat → btree_sorted_keys_inserter
  | 0 => st
  | fuel2 + 1 =>
    if node.is_leaf then st
    else if expected_min_number_of_keys st.order ≤ node.keys_count then st
    else
      let res := rebalance_slots (fun s c => rebalance_keys_in_node s c fuel2) st node false
        (desc_slots (expected_min_number_of_keys st.order)
          (get_number_of_keys_in_node_during_rebalance st node))
      let node2 := { res.2.1 with keys_count := expected_min_number_of_keys st.order }
      { res.1 with disk := disk_write res.1.disk node2 }

/-- Embeds rebalance_keys from src/lib/btree_sorted_keys_inserter.hpp: it
reads the root and rebalances from there (the commented-out walk of the
rightmost not-visited subtree is dead code). -/
def rebalance_keys (st : btree_sorted_keys_inserter) : btree_sorted_keys_inserter :=
  match disk_read st.disk st.m_root_ptr with
  | none => st
  | some root => rebalance_keys_in_node st root (st.m_tree_height + 1)

/-- Embeds rebalance_tree: the fulfillment pass from the root at level 1,
then the key rebalance pass. -/
def rebalance_tree (st : btree_sorted_keys_inserter) : btree_sorted_keys_inserter :=
  rebalance_keys
    (create_nodes_to_fulfill_b_tree st st.m_root_ptr 1 (st.m_tree_height + 1))

/-- Embeds finalize_inserting: flush the path, then rebalance. -/
def finalize_inserting (st : btree_sorted_keys_inserter) : btree_sorted_keys_inserter :=
  rebalance_tree (flush_path st)

/-- Modelled from the spec (section 4.2): the reader btree.hpp is absent
from the source snapshot.  Within a node the live key prefix is searched;
a hit answers true; otherwise the descent follows pointers[i] where i is
the number of live keys strictly below the target, until a leaf answers
false.  The fuel bounds the descent and exceeds the tree height at every
call site. -/
def contains_from (d : NodeDisk) (key : sha1_t) : Nat → Nat → Bool
  | _, 0 => false
  | ptr, fuel + 1 =>
    match disk_read d ptr with
    | none => false
    | some n =>
      if (n.keys.take n.keys_count).any (fun k => k == key) then true
      else if n.is_leaf then false
      else contains_from d key
        (n.pointers.getD ((n.keys.take n.keys_count).countP (fun k => mem_lt k key))
          k_unused_pointer) fuel

/-- Modelled from the spec (section 4.2 and 6.3): contains of the missing
reader, run against a builder state with the persisted root pointer. -/
def contains (st : btree_sorted_keys_inserter) (key : sha1_t) : Bool :=
  contains_from st.disk key st.m_root_ptr (st.m_tree_height + 1)

/-- create_builder, insert_sorted over a whole key list, then finalize. -/
def build_tree (m : Nat) (keys : List sha1_t) : btree_sorted_keys_inserter :=
  finalize_inserting (keys.foldl insert_sorted (mk_inserter m))

/-- The 20-byte big-endian encoding of a small integer. -/
def be_key (i : Nat) : sha1_t := List.replicate 19 0 ++ [i]

/-! ## Concrete builds deciding the membership, occupancy, fulfillment and
donor-bookkeeping claims -/

/-- Ten strictly ascending 20-byte keys: the big-endian integers 1..10. -/
def c1_keys : List sha1_t := (List.range 10).map (fun i => be_key (i + 1))

/-- Boolean check that a key stream is strictly ascending in memcmp order
(the insert_sorted precondition, which also rules out duplicates). -/
def pairwise_ascending : List sha1_t → Bool
  | [] => true
  | [_] => true
  | a :: b :: rest => mem_lt a b && pairwise_ascending (b :: rest)

/-- C1 (refuting evaluation): with order m = 1, inserting the strictly
ascending duplicate-free keys 1..10 and finalizing loses key 10:
contains answers false for an inserted key.  (The fulfillment pass
overwrites the live child pointer of node 5, orphaning the leaf that
holds key 10; see c3_fulfillment_counterexample.)  The first conjunct
checks the sorted-stream precondition, the second that the lost key was
inserted. -/
theorem c1_inserted_key_lost :
    pairwise_ascending c1_keys = true ∧
    be_key 10 ∈ c1_keys ∧
    contains (build_tree 1 c1_keys) (be_key 10) = false := by
  decide

/-- The post-finalization occupancy invariant of C2, as a decidable check
over every record in the finalized file: keys_count at most 2m, non-root
nodes hold at least m keys, and interior nodes have exactly keys_count+1
live children. -/
def occupancy_ok (st : btree_sorted_keys_inserter) : Bool :=
  (List.range st.m_next_node_ptr).all (fun p =>
    match st.disk p with
    | none => true
    | some n =>
      decide (n.keys_count ≤ 2 * st.order) &&
      (p == st.m_root_ptr || decide (st.order ≤ n.keys_count)) &&
      (n.is_leaf || n.children_count == n.keys_count + 1))

/-- C2 (refuting evaluation): with order m = 1 and the three keys 1, 2, 3,
the finalized file violates the occupancy invariant: node 2, the non-root
rightmost leaf, ends with keys_count 0 < m. -/
theorem c2_occupancy_invariant_fails :
    occupancy_ok (build_tree 1 [be_key 1, be_key 2, be_key 3]) = false ∧
    ((build_tree 1 [be_key 1, be_key 2, be_key 3]).disk 2).map btree_node.keys_count = some 0 ∧
    (build_tree 1 [be_key 1, be_key 2, be_key 3]).m_root_ptr = 1 := by
  decide

/-- The builder state of the c1_keys build at the start of the second step
of finalization: the path flushed, the rebalance passes not yet run. -/
def c3_pre : btree_sorted_keys_inserter :=
  flush_path (c1_keys.foldl insert_sorted (mk_inserter 1))

/-- C3 (counterexample): in the c1_keys build, node 5 is a non-root
interior node whose child count 1 is below m + 1 = 2, yet the fulfillment
pass does not leave its existing child pointer intact: pointers[0] is 6
before the pass and 7 (a freshly created node) after it. -/
theorem c3_fulfillment_counterexample :
    ((c3_pre.disk 5).map (fun n => (n.is_leaf, n.children_count, n.pointers.getD 0 0)) =
      some (false, 1, 6)) ∧
    c3_pre.m_root_ptr = 4 ∧
    (((create_nodes_to_fulfill_b_tree c3_pre c3_pre.m_root_ptr 1
        (c3_pre.m_tree_height + 1)).disk 5).map (fun n => n.pointers.getD 0 0) = some 7) := by
  decide

/-- C4 (refuting evaluation): with order m = 2 and the five keys 1..5, the
rebalance pass lends the greatest key of node 0 (the key 4) to the root,
records one taken key for node 0 in m_keys_took_by_provider, but never
rewrites node 0: its on-disk keys_count stays 4 instead of the effective
3, so the borrowed key is live both in the root record and in the donor
record of the finalized file. -/
theorem c4_donor_not_rewritten :
    (build_tree 2 ((List.range 5).map (fun i => be_key (i + 1)))).m_keys_took_by_provider 0 = 1 ∧
    ((build_tree 2 ((List.range 5).map (fun i => be_key (i + 1)))).disk 0).map
      btree_node.keys_count = some 4 ∧
    ((build_tree 2 ((List.range 5).map (fun i => be_key (i + 1)))).disk 0).map
      (fun n => (n.keys.take n.keys_count).any (fun k => k == be_key 4)) = some true ∧
    ((build_tree 2 ((List.range 5).map (fun i => be_key (i + 1)))).disk 1).map
      (fun n => (n.keys.take n.keys_count).any (fun k => k == be_key 4)) = some true := by
  decide

/-! ## The no-split build phase and the header defaults (C9) -/

theorem foldl_push_back_fields (ks : List sha1_t) :
    ∀ node : btree_node,
      (ks.foldl btree_node.push_back node).keys_count = node.keys_count + ks.length ∧
      (ks.foldl btree_node.push_back node).is_leaf = node.is_leaf ∧
      (ks.foldl btree_node.push_back node).this_pointer = node.this_pointer ∧
      (ks.foldl btree_node.push_back node).pointers = node.pointers ∧
      (ks.foldl btree_node.push_back node).parent_pointer = node.parent_pointer := by
  induction ks with
  | nil => intro node; simp
  | cons k ks ih =>
    intro node
    have h := ih (node.push_back k)
    simp only [List.foldl_cons, List.length_cons]
    refine ⟨?_, h.2.1, h.2.2.1, h.2.2.2.1, h.2.2.2.2⟩
    rw [h.1]
    simp [btree_node.push_back]
    omega

theorem foldl_insert_nonfull (ks : List sha1_t) :
    ∀ (st : btree_sorted_keys_inserter) (node : btree_node),
      st.m_current_path = [node] → node.keys_count + ks.length ≤ 2 * st.order →
      ks.foldl insert_sorted st =
        { st with m_current_path := [ks.foldl btree_node.push_back node] } := by
  induction ks with
  | nil =>
    intro st node hpath hcap
    obtain ⟨o, np, cp, th, rp, rw2, d, cr, kt⟩ := st
    simp only at hpath
    subst hpath
    rfl
  | cons k ks ih =>
    intro st node hpath hcap
    have hnotfull : node.is_full st.order = false := by
      simp only [btree_node.is_full, beq_eq_false_iff_ne, ne_eq]
      simp only [List.length_cons] at hcap
      omega
    have hstep : insert_sorted st k = { st with m_current_path := [node.push_back k] } := by
      simp [insert_sorted, hpath, hnotfull]
    simp only [List.foldl_cons, hstep]
    have hkc : (node.push_back k).keys_count = node.keys_count + 1 := by
      simp [btree_node.push_back]
    have h2 := ih { st with m_current_path := [node.push_back k] } (node.push_back k)
      rfl (by simp only [List.length_cons] at hcap; simp [hkc]; omega)
    rw [h2]

theorem btree_node.update_this_self (n : btree_node) (p : Nat) (h : n.this_pointer = p) :
    { n with this_pointer := p } = n := by
  cases n
  simp only at h
  simp [h]

/-- The fulfillment pass returns immediately when the root record is a
leaf. -/
theorem fulfill_at_leaf_root (st2 : btree_sorted_keys_inserter) (N : btree_node) (f : Nat)
    (hread : disk_read st2.disk st2.m_root_ptr = some N) (hleaf : N.is_leaf = true) :
    create_nodes_to_fulfill_b_tree st2 st2.m_root_ptr 1 (f + 1) = st2 := by
  simp only [create_nodes_to_fulfill_b_tree]
  rw [hread]
  simp [hleaf]

/-- The rebalance pass returns immediately when the root record is a
leaf. -/
theorem rebalance_keys_at_leaf_root (st2 : btree_sorted_keys_inserter) (N : btree_node)
    (hread : disk_read st2.disk st2.m_root_ptr = some N) (hleaf : N.is_leaf = true) :
    rebalance_keys st2 = st2 := by
  simp only [rebalance_keys]
  rw [hread]
  simp [rebalance_keys_in_node, hleaf]

/-- Finalizing a builder whose whole path is one leaf root only flushes
that leaf: the fulfillment pass returns at the leaf root and the rebalance
pass likewise. -/
theorem finalize_of_leaf_root (st : btree_sorted_keys_inserter) (N : btree_node)
    (hpath : st.m_current_path = [N]) (hthis : N.this_pointer = st.m_root_ptr)
    (hleaf : N.is_leaf = true) :
    finalize_inserting st = { st with disk := disk_write st.disk N } := by
  have hflush : flush_path st = { st with disk := disk_write st.disk N } := by
    simp [flush_path, hpath]
  have hread : disk_read (disk_write st.disk N) st.m_root_ptr = some N := by
    simp only [disk_read, disk_write]
    rw [if_pos (show st.m_root_ptr = N.this_pointer from hthis.symm)]
    simp only [Option.map_some']
    rw [btree_node.update_this_self N st.m_root_ptr hthis]
  have hread2 : disk_read ({ st with disk := disk_write st.disk N } :
      btree_sorted_keys_inserter).disk ({ st with disk := disk_write st.disk N } :
      btree_sorted_keys_inserter).m_root_ptr = some N := hread
  unfold finalize_inserting rebalance_tree
  rw [hflush]
  rw [fulfill_at_leaf_root _ N _ hread2 hleaf, rebalance_keys_at_leaf_root _ N hread2 hleaf]

/-- C9: the builder constructor persists only the order: the header
root-pointer region starts unwritten and the store empty; the root is
allocated with identifier 0 and the in-memory root pointer defaults to 0.
A build of at most 2m keys never splits the root, so after finalization
the root-pointer region is still unwritten, the in-memory root pointer is
still 0, and the record of node 0 is the leaf root holding every inserted
key, which is what makes the file reopenable. -/
theorem c9_header_root_defaults (m : Nat) (ks : List sha1_t) (hlen : ks.length ≤ 2 * m) :
    (mk_inserter m).m_root_ptr = 0 ∧
    (mk_inserter m).root_ptr_written = false ∧
    (∀ p, (mk_inserter m).disk p = none) ∧
    (mk_inserter m).m_current_path.map btree_node.this_pointer = [0] ∧
    (build_tree m ks).root_ptr_written = false ∧
    (build_tree m ks).m_root_ptr = 0 ∧
    ∃ r, (build_tree m ks).disk 0 = some r ∧ r.is_leaf = true ∧
      r.this_pointer = 0 ∧ r.keys_count = ks.length := by
  have hroot0 := foldl_push_back_fields ks
    ({ mk_node m k_unused_pointer with this_pointer := 0, is_leaf := true })
  have hNleaf : (ks.foldl btree_node.push_back
      { mk_node m k_unused_pointer with this_pointer := 0, is_leaf := true }).is_leaf = true :=
    hroot0.2.1
  have hNthis : (ks.foldl btree_node.push_back
      { mk_node m k_unused_pointer with this_pointer := 0, is_leaf := true }).this_pointer = 0 :=
    hroot0.2.2.1
  have hNkc : (ks.foldl btree_node.push_back
      { mk_node m k_unused_pointer with this_pointer := 0, is_leaf := true }).keys_count =
      ks.length := by
    have h1 := hroot0.1
    simpa [mk_node] using h1
  have hfold : ks.foldl insert_sorted (mk_inserter m) =
      { mk_inserter m with m_current_path := [ks.foldl btree_node.push_back
        { mk_node m k_unused_pointer with this_pointer := 0, is_leaf := true }] } :=
    foldl_insert_nonfull ks (mk_inserter m) _ rfl (by simp [mk_inserter, mk_node]; omega)
  have hfin := finalize_of_leaf_root
    { mk_inserter m with m_current_path := [ks.foldl btree_node.push_back
      { mk_node m k_unused_pointer with this_pointer := 0, is_leaf := true }] }
    (ks.foldl btree_node.push_back
      { mk_node m k_unused_pointer with this_pointer := 0, is_leaf := true })
    rfl hNthis hNleaf
  have hbuild : build_tree m ks = { mk_inserter m with
      m_current_path := [ks.foldl btree_node.push_back
        { mk_node m k_unused_pointer with this_pointer := 0, is_leaf := true }]
      disk := disk_write (mk_inserter m).disk (ks.foldl btree_node.push_back
        { mk_node m k_unused_pointer with this_pointer := 0, is_leaf := true }) } := by
    unfold build_tree
    rw [hfold, hfin]
  refine ⟨rfl, rfl, fun p => rfl, rfl, ?_, ?_, ?_⟩
  · rw [hbuild]; rfl
  · rw [hbuild]; rfl
  · refine ⟨ks.foldl btree_node.push_back
      { mk_node m k_unused_pointer with this_pointer := 0, is_leaf := true }, ?_, hNleaf, hNthis, hNkc⟩
    rw [hbuild]
    show disk_write (mk_inserter m).disk _ 0 = _
    simp [disk_write, hNthis]

/-- Witness for C9: order 1 with two keys (at most 2m = 2). -/
theorem c9_header_root_defaults_witness :
    (build_tree 1 [be_key 1, be_key 2]).root_ptr_written = false :=
  (c9_header_root_defaults 1 [be_key 1, be_key 2] (by decide)).2.2.2.2.1

/-! ## The rightmost-spine chain created on a split (C5, C8) -/

theorem range'_reverse_snoc (a n : Nat) :
    (List.range' a (n + 1)).reverse = (List.range' (a + 1) n).reverse ++ [a] := by
  rw [List.range'_succ]
  simp

theorem create_children_till_leaf_spec (level : Nat) :
    ∀ (st : btree_sorted_keys_inserter) (parent : btree_node) (rest : List btree_node),
      st.m_current_path = parent :: rest →
      ∃ chain : List btree_node,
        (create_children_till_leaf st level).m_current_path =
          chain ++ ({ parent with
            pointers := parent.pointers.set parent.keys_count st.m_next_node_ptr } :: rest) ∧
        chain.map btree_node.this_pointer =
          (List.range' st.m_next_node_ptr (level + 1)).reverse ∧
        (∀ c ∈ chain, c.keys_count = 0) ∧
        (∃ lf tl, chain = lf :: tl ∧ lf.is_leaf = true ∧ ∀ c ∈ tl, c.is_leaf = false) ∧
        (create_children_till_leaf st level).m_next_node_ptr =
          st.m_next_node_ptr + (level + 1) ∧
        (create_children_till_leaf st level).disk = st.disk ∧
        (create_children_till_leaf st level).order = st.order ∧
        (create_children_till_leaf st level).m_tree_height = st.m_tree_height ∧
        (create_children_till_leaf st level).m_root_ptr = st.m_root_ptr ∧
        (create_children_till_leaf st level).root_ptr_written = st.root_ptr_written ∧
        (create_children_till_leaf st level).m_nodes_created_during_rebalancing =
          st.m_nodes_created_during_rebalancing ∧
        (create_children_till_leaf st level).m_keys_took_by_provider =
          st.m_keys_took_by_provider := by
  induction level with
  | zero =>
    intro st parent rest hpath
    refine ⟨[{ mk_node st.order parent.this_pointer with
      this_pointer := st.m_next_node_ptr, keys_count := 0, is_leaf := true }],
      ?_, ?_, ?_, ⟨_, [], rfl, rfl, by simp⟩, ?_, ?_, ?_, ?_, ?_, ?_, ?_, ?_⟩ <;>
      simp [create_children_till_leaf, add_child, hpath, List.range'_succ]
  | succ level ih =>
    intro st parent rest hpath
    have hstep : create_children_till_leaf st (level + 1) =
        create_children_till_leaf (add_child st false) level := rfl
    have hpath1 : (add_child st false).m_current_path =
        ({ mk_node st.order parent.this_pointer with
          this_pointer := st.m_next_node_ptr, keys_count := 0, is_leaf := false }) ::
        ({ parent with
          pointers := parent.pointers.set parent.keys_count st.m_next_node_ptr } :: rest) := by
      simp [add_child, hpath]
    obtain ⟨chain1, hp1, hids1, hkc1, ⟨lf, tl, hlt, hlf, htl⟩, hnp1, hd1, ho1, hh1, hr1, hw1,
      hcr1, hkt1⟩ := ih (add_child st false) _ _ hpath1
    have hnxt : (add_child st false).m_next_node_ptr = st.m_next_node_ptr + 1 := by
      simp [add_child, hpath]
    rw [hnxt] at hids1 hnp1
    refine ⟨chain1 ++ [{ { mk_node st.order parent.this_pointer with
      this_pointer := st.m_next_node_ptr, keys_count := 0, is_leaf := false } with
      pointers := ({ mk_node st.order parent.this_pointer with
        this_pointer := st.m_next_node_ptr, keys_count := 0, is_leaf := false } :
        btree_node).pointers.set 0 (st.m_next_node_ptr + 1) }],
      ?_, ?_, ?_, ?_, ?_, ?_, ?_, ?_, ?_, ?_, ?_, ?_⟩
    · rw [hstep, hp1, hnxt]
      simp [mk_node]
    · simp only [List.map_append, hids1, List.map_cons, List.map_nil]
      rw [range'_reverse_snoc, range'_reverse_snoc, range'_reverse_snoc]
    · intro c hc
      rcases List.mem_append.mp hc with hc1 | hc2
      · exact hkc1 c hc1
      · simp only [List.mem_singleton] at hc2
        subst hc2
        rfl
    · refine ⟨lf, tl ++ [{ { mk_node st.order parent.this_pointer with
        this_pointer := st.m_next_node_ptr, keys_count := 0, is_leaf := false } with
        pointers := ({ mk_node st.order parent.this_pointer with
          this_pointer := st.m_next_node_ptr, keys_count := 0, is_leaf := false } :
          btree_node).pointers.set 0 (st.m_next_node_ptr + 1) }],
        by rw [hlt]; simp, hlf, ?_⟩
      intro c hc
      rcases List.mem_append.mp hc with hc1 | hc2
      · exact htl c hc1
      · simp only [List.mem_singleton] at hc2
        subst hc2
        rfl
    · rw [hstep, hnp1]
      omega
    · rw [hstep, hd1]
      simp [add_child, hpath]
    · rw [hstep, ho1]
      simp [add_child, hpath]
    · rw [hstep, hh1]
      simp [add_child, hpath]
    · rw [hstep, hr1]
      simp [add_child, hpath]
    · rw [hstep, hw1]
      simp [add_child, hpath]
    · rw [hstep, hcr1]
      simp [add_child, hpath]
    · rw [hstep, hkt1]
      simp [add_child, hpath]

theorem push_back_take (n : btree_node) (key : sha1_t) (h : n.keys_count < n.keys.length) :
    (n.push_back key).keys.take (n.keys_count + 1) = n.keys.take n.keys_count ++ [key] := by
  apply List.ext_getElem
  · simp only [btree_node.push_back, List.length_take, List.length_set, List.length_append,
      List.length_cons, List.length_nil]
    omega
  · intro i h1 h2
    simp only [btree_node.push_back, List.length_take, List.length_set] at h1
    simp only [btree_node.push_back]
    rw [List.getElem_take]
    by_cases hik : i < n.keys_count
    · rw [List.getElem_set_ne (show n.keys_count ≠ i by omega)]
      rw [List.getElem_append_left (by simp only [List.length_take]; omega)]
      rw [List.getElem_take]
    · have hik2 : i = n.keys_count := by omega
      subst hik2
      rw [List.getElem_set_self (by simp only [List.length_set]; omega)]
      rw [List.getElem_append_right (by simp only [List.length_take]; omega)]
      simp [List.length_take]


theorem split_node_fueled_root (fuel : Nat) (st : btree_sorted_keys_inserter) (key : sha1_t)
    (level : Nat) (node : btree_node) (hpath : st.m_current_path = [node]) :
    split_node_fueled (fuel + 1) st key level = split_root_and_grow st key level := by
  simp only [split_node_fueled]
  rw [hpath]

theorem split_node_fueled_cons (fuel : Nat) (st : btree_sorted_keys_inserter) (key : sha1_t)
    (level : Nat) (node parent : btree_node) (rest : List btree_node)
    (hpath : st.m_current_path = node :: parent :: rest) :
    split_node_fueled (fuel + 1) st key level =
      if parent.is_full st.order then
        split_node_fueled fuel { st with
          disk := disk_write st.disk node
          m_current_path := parent :: rest } key (level + 1)
      else
        create_children_till_leaf { st with
          disk := disk_write st.disk node
          m_current_path := parent.insert key :: rest } level := by
  simp only [split_node_fueled]
  rw [hpath]

theorem split_grow_spec (st : btree_sorted_keys_inserter) (key : sha1_t) (level : Nat)
    (node : btree_node) (hpath : st.m_current_path = [node]) (horder : 1 ≤ st.order) :
    (split_root_and_grow st key level).m_tree_height = st.m_tree_height + 1 ∧
    (split_root_and_grow st key level).m_root_ptr = st.m_next_node_ptr ∧
    (split_root_and_grow st key level).root_ptr_written = true ∧
    (split_root_and_grow st key level).disk node.this_pointer =
      some { node with parent_pointer := st.m_next_node_ptr } ∧
    ∃ chain root2,
      (split_root_and_grow st key level).m_current_path = chain ++ [root2] ∧
      chain.length = level + 1 ∧
      root2.this_pointer = st.m_next_node_ptr ∧
      root2.is_leaf = false ∧
      root2.keys_count = 1 ∧
      root2.keys.getD 0 [] = key ∧
      root2.pointers.getD 0 0 = node.this_pointer := by
  obtain ⟨chain, hp, hids, hkc, hshape, hnp, hd, ho, hh, hr, hw, hcr, hkt⟩ :=
    create_children_till_leaf_spec level { st with
      m_next_node_ptr := st.m_next_node_ptr + 1
      disk := disk_write st.disk { node with parent_pointer := st.m_next_node_ptr }
      m_current_path := [{ (mk_node st.order k_unused_pointer).insert key with
        pointers := ((mk_node st.order k_unused_pointer).insert key).pointers.set 0
          node.this_pointer
        this_pointer := st.m_next_node_ptr
        is_leaf := false }] } _ [] rfl
  have hgrow : split_root_and_grow st key level =
      { (create_children_till_leaf { st with
          m_next_node_ptr := st.m_next_node_ptr + 1
          disk := disk_write st.disk { node with parent_pointer := st.m_next_node_ptr }
          m_current_path := [{ (mk_node st.order k_unused_pointer).insert key with
            pointers := ((mk_node st.order k_unused_pointer).insert key).pointers.set 0
              node.this_pointer
            this_pointer := st.m_next_node_ptr
            is_leaf := false }] } level) with
        m_root_ptr := st.m_next_node_ptr
        root_ptr_written := true
        m_tree_height := (create_children_till_leaf { st with
          m_next_node_ptr := st.m_next_node_ptr + 1
          disk := disk_write st.disk { node with parent_pointer := st.m_next_node_ptr }
          m_current_path := [{ (mk_node st.order k_unused_pointer).insert key with
            pointers := ((mk_node st.order k_unused_pointer).insert key).pointers.set 0
              node.this_pointer
            this_pointer := st.m_next_node_ptr
            is_leaf := false }] } level).m_tree_height + 1 } := by
    simp only [split_root_and_grow]
    rw [hpath]
  rw [hgrow]
  refine ⟨?_, rfl, rfl, ?_, ?_⟩
  · show (create_children_till_leaf _ level).m_tree_height + 1 = st.m_tree_height + 1
    rw [hh]
  · show (create_children_till_leaf _ level).disk node.this_pointer = _
    rw [hd]
    show disk_write st.disk { node with parent_pointer := st.m_next_node_ptr }
      node.this_pointer = _
    simp [disk_write]
  · refine ⟨chain, _, hp, ?_, rfl, rfl, rfl, ?_, ?_⟩
    · have h2 := congrArg List.length hids
      simpa using h2
    · show (((List.replicate (2 * st.order) (List.replicate 20 0)).set 0 key).getD 0 []) = key
      have hlen : 0 < ((List.replicate (2 * st.order) (List.replicate 20 0)).set 0 key).length := by
        simp only [List.length_set, List.length_replicate]
        omega
      rw [List.getD_eq_getElem _ _ hlen, List.getElem_set_self hlen]
    · show ((((List.replicate (2 * st.order + 1) k_unused_pointer).set 0
        node.this_pointer).set 1 (st.m_next_node_ptr + 1)).getD 0 0) = node.this_pointer
      have hlen : 0 < (((List.replicate (2 * st.order + 1) k_unused_pointer).set 0
          node.this_pointer).set 1 (st.m_next_node_ptr + 1)).length := by
        simp only [List.length_set, List.length_replicate]
        omega
      have hlen2 : 0 < ((List.replicate (2 * st.order + 1) k_unused_pointer).set 0
          node.this_pointer).length := by
        simp only [List.length_set, List.length_replicate]
        omega
      rw [List.getD_eq_getElem _ _ hlen]
      rw [List.getElem_set_ne (by omega)]
      rw [List.getElem_set_self hlen2]

/-- C5: the insertion algorithm steps.  (a) A non-full rightmost leaf
absorbs the key by push_back: the key is appended after the live prefix
and keys_count is incremented.  (b) A full leaf dispatches to split_node
at level 0.  (c) split_node flushes and pops the back-of-path node and,
when the new back is also full, recurses with level + 1.  (d) Otherwise
the key becomes the new rightmost key of the back-of-path node and an
empty rightmost spine of level + 1 fresh nodes ending in a leaf is
materialized, attached at the slot right of the new key.  (e) When the
overflow reaches the root, a new root holding the single key with
pointers[0] at the old root identifier is created, the persisted
root_pointer is updated to it and the height is incremented. -/
theorem c5_insertion_algorithm_steps (st : btree_sorted_keys_inserter) (key : sha1_t)
    (node : btree_node) (rest : List btree_node)
    (hpath : st.m_current_path = node :: rest)
    (hkeyslen : node.keys.length = 2 * st.order)
    (horder : 1 ≤ st.order) :
    (node.keys_count < 2 * st.order →
      insert_sorted st key = { st with m_current_path := node.push_back key :: rest } ∧
      (node.push_back key).keys_count = node.keys_count + 1 ∧
      (node.push_back key).keys.take (node.keys_count + 1) =
        node.keys.take node.keys_count ++ [key]) ∧
    (node.keys_count = 2 * st.order → insert_sorted st key = split_node st key 0) ∧
    (∀ level parent rest2, rest = parent :: rest2 →
      parent.is_full st.order = true →
      split_node st key level = split_node { st with
        disk := disk_write st.disk node
        m_current_path := parent :: rest2 } key (level + 1)) ∧
    (∀ level parent rest2, rest = parent :: rest2 →
      parent.is_full st.order = false →
      ∃ chain parent2,
        (split_node st key level).m_current_path = chain ++ parent2 :: rest2 ∧
        chain.length = level + 1 ∧
        (∀ c ∈ chain, c.keys_count = 0) ∧
        (∃ lf tl, chain = lf :: tl ∧ lf.is_leaf = true ∧ ∀ c ∈ tl, c.is_leaf = false) ∧
        parent2.keys_count = parent.keys_count + 1 ∧
        parent2.keys = parent.keys.set parent.keys_count key ∧
        parent2.pointers = parent.pointers.set (parent.keys_count + 1) st.m_next_node_ptr ∧
        parent2.this_pointer = parent.this_pointer ∧
        (split_node st key level).disk = disk_write st.disk node ∧
        (split_node st key level).m_tree_height = st.m_tree_height ∧
        (split_node st key level).m_root_ptr = st.m_root_ptr ∧
        (split_node st key level).root_ptr_written = st.root_ptr_written) ∧
    (∀ level, rest = [] →
      (split_node st key level).m_tree_height = st.m_tree_height + 1 ∧
      (split_node st key level).m_root_ptr = st.m_next_node_ptr ∧
      (split_node st key level).root_ptr_written = true ∧
      (split_node st key level).disk node.this_pointer =
        some { node with parent_pointer := st.m_next_node_ptr } ∧
      ∃ chain root2,
        (split_node st key level).m_current_path = chain ++ [root2] ∧
        chain.length = level + 1 ∧
        root2.this_pointer = st.m_next_node_ptr ∧
        root2.is_leaf = false ∧
        root2.keys_count = 1 ∧
        root2.keys.getD 0 [] = key ∧
        root2.pointers.getD 0 0 = node.this_pointer) := by
  refine ⟨?_, ?_, ?_, ?_, ?_⟩
  · intro hlt
    have hnotfull : node.is_full st.order = false := by
      simp only [btree_node.is_full, beq_eq_false_iff_ne, ne_eq]
      omega
    refine ⟨?_, rfl, push_back_take node key (by omega)⟩
    simp [insert_sorted, hpath, hnotfull]
  · intro heq
    have hfull : node.is_full st.order = true := by
      simp [btree_node.is_full, heq]
    simp [insert_sorted, hpath, hfull]
  · intro level parent rest2 hrest hfull2
    subst hrest
    have h1 : split_node st key level =
        split_node_fueled (rest2.length + 1 + 1) st key level := by
      rw [split_node, hpath]
      rfl
    rw [h1, split_node_fueled_cons (rest2.length + 1) st key level node parent rest2 hpath,
      hfull2]
    simp only [if_true]
    rfl
  · intro level parent rest2 hrest hnotfull2
    subst hrest
    have h1 : split_node st key level =
        split_node_fueled (rest2.length + 1 + 1) st key level := by
      rw [split_node, hpath]
      rfl
    have hsplit : split_node st key level = create_children_till_leaf { st with
        disk := disk_write st.disk node
        m_current_path := parent.insert key :: rest2 } level := by
      rw [h1, split_node_fueled_cons (rest2.length + 1) st key level node parent rest2 hpath,
        hnotfull2]
      simp only [Bool.false_eq_true, if_false]
    obtain ⟨chain, hp, hids, hkc, hshape, hnp, hd, ho, hh, hr, hw, hcr, hkt⟩ :=
      create_children_till_leaf_spec level { st with
        disk := disk_write st.disk node
        m_current_path := parent.insert key :: rest2 } (parent.insert key) rest2 rfl
    refine ⟨chain, { parent.insert key with
        pointers := (parent.insert key).pointers.set (parent.insert key).keys_count
          st.m_next_node_ptr },
      by rw [hsplit]; exact hp, ?_, hkc, hshape, rfl, rfl, rfl, rfl,
      by rw [hsplit]; exact hd, by rw [hsplit]; exact hh,
      by rw [hsplit]; exact hr, by rw [hsplit]; exact hw⟩
    have h2 := congrArg List.length hids
    simpa using h2
  · intro level hrest
    subst hrest
    have hsplit : split_node st key level = split_root_and_grow st key level := by
      rw [split_node, hpath]
      exact split_node_fueled_root 0 st key level node hpath
    rw [hsplit]
    exact split_grow_spec st key level node hpath horder

/-- Witness for C5 at a concrete state: order 1, a full root leaf holding
keys 1 and 2, inserting key 3 (the root-growth branch). -/
theorem c5_insertion_algorithm_steps_witness :
    insert_sorted (insert_sorted (insert_sorted (mk_inserter 1) (be_key 1)) (be_key 2))
      (be_key 3) =
    split_node (insert_sorted (insert_sorted (mk_inserter 1) (be_key 1)) (be_key 2))
      (be_key 3) 0 :=
  (c5_insertion_algorithm_steps
    (insert_sorted (insert_sorted (mk_inserter 1) (be_key 1)) (be_key 2)) (be_key 3)
    ({ mk_node 1 k_unused_pointer with
        this_pointer := 0, is_leaf := true, keys_count := 2
        keys := [be_key 1, be_key 2] }) [] (by decide) (by decide) (by decide)).2.1
    (by decide)

/-! ## The fulfillment pass on one under-filled node (C3, amended) -/

theorem mk_node_children_count (m par : Nat) : (mk_node m par).children_count = 0 := by
  simp only [mk_node, btree_node.children_count]
  induction 2 * m + 1 with
  | zero => rfl
  | succ n ih => simpa [List.replicate_succ, List.countP_cons] using ih

theorem fulfill_fresh_child (st1 : btree_sorted_keys_inserter) (cptr lvl fuel : Nat)
    (ch : btree_node)
    (hd1 : st1.disk cptr = some ch)
    (hthis : ch.this_pointer = cptr)
    (hleaf : ch.is_leaf = false)
    (hcc : ch.children_count = 0)
    (hroot : cptr ≠ st1.m_root_ptr) :
    (∀ p, (create_nodes_to_fulfill_b_tree st1 cptr lvl fuel).disk p = st1.disk p) ∧
    (create_nodes_to_fulfill_b_tree st1 cptr lvl fuel).m_next_node_ptr =
      st1.m_next_node_ptr ∧
    (create_nodes_to_fulfill_b_tree st1 cptr lvl fuel).order = st1.order ∧
    (create_nodes_to_fulfill_b_tree st1 cptr lvl fuel).m_tree_height = st1.m_tree_height ∧
    (create_nodes_to_fulfill_b_tree st1 cptr lvl fuel).m_root_ptr = st1.m_root_ptr ∧
    (create_nodes_to_fulfill_b_tree st1 cptr lvl fuel).root_ptr_written =
      st1.root_ptr_written ∧
    (create_nodes_to_fulfill_b_tree st1 cptr lvl fuel).m_current_path =
      st1.m_current_path ∧
    (create_nodes_to_fulfill_b_tree st1 cptr lvl fuel).m_keys_took_by_provider =
      st1.m_keys_took_by_provider ∧
    (create_nodes_to_fulfill_b_tree st1 cptr lvl fuel).m_nodes_created_during_rebalancing =
      st1.m_nodes_created_during_rebalancing := by
  have hread : disk_read st1.disk cptr = some ch := by
    simp only [disk_read, hd1, Option.map_some']
    rw [btree_node.update_this_self ch cptr hthis]
  match fuel with
  | 0 => exact ⟨fun p => rfl, rfl, rfl, rfl, rfl, rfl, rfl, rfl, rfl⟩
  | f + 1 =>
    simp only [create_nodes_to_fulfill_b_tree]
    rw [hread]
    simp only [hleaf, Bool.false_eq_true, if_false, if_neg hroot, hcc, if_pos rfl]
    by_cases hkc : expected_min_number_of_keys st1.order + 1 ≤ ch.keys_count
    · simp only [if_pos hkc]
      simp
    · simp only [if_neg hkc]
      refine ⟨?_, by simp, by simp, by simp, by simp, by simp, by simp, by simp, by simp⟩
      intro p
      show disk_write st1.disk ch p = st1.disk p
      simp only [disk_write]
      by_cases hp : p = ch.this_pointer
      · rw [if_pos hp, hp, hthis, hd1]
      · rw [if_neg hp]

theorem getD_set_eq2 (l : List Nat) (i a d : Nat) (h : i < l.length) :
    (l.set i a).getD i d = a := by
  rw [List.getD_eq_getElem _ _ (by simpa using h), List.getElem_set_self (by simpa using h)]

theorem getD_set_ne2 (l : List Nat) (i j a d : Nat) (h : i ≠ j) :
    (l.set i a).getD j d = l.getD j d := by
  simp [List.getD_eq_getElem?_getD, List.getElem?_set_ne h]

/-- The observable outcome of the allocation loop of the fulfillment pass
run from a state st on an in-memory node, for count children starting at
slot idx: fresh identifiers and registrations, the fresh empty records on
disk, the frame on every other record, and the slot updates on the
in-memory node. -/
def fulfill_out (st : btree_sorted_keys_inserter) (node : btree_node) (leafs : Bool)
    (idx count : Nat) (out : btree_sorted_keys_inserter × btree_node) : Prop :=
  out.1.m_next_node_ptr = st.m_next_node_ptr + count ∧
  out.1.order = st.order ∧
  out.1.m_tree_height = st.m_tree_height ∧
  out.1.m_root_ptr = st.m_root_ptr ∧
  out.1.root_ptr_written = st.root_ptr_written ∧
  out.1.m_current_path = st.m_current_path ∧
  out.1.m_keys_took_by_provider = st.m_keys_took_by_provider ∧
  (∀ q, q ∈ out.1.m_nodes_created_during_rebalancing ↔
    (q ∈ st.m_nodes_created_during_rebalancing ∨ ∃ j, j < count ∧ q = st.m_next_node_ptr + j)) ∧
  (∀ j, j < count → out.1.disk (st.m_next_node_ptr + j) =
    some { mk_node st.order node.this_pointer with
      this_pointer := st.m_next_node_ptr + j, keys_count := 0, is_leaf := leafs }) ∧
  (∀ p, (∀ j, j < count → p ≠ st.m_next_node_ptr + j) → out.1.disk p = st.disk p) ∧
  out.2.keys = node.keys ∧
  out.2.keys_count = node.keys_count ∧
  out.2.is_leaf = node.is_leaf ∧
  out.2.this_pointer = node.this_pointer ∧
  out.2.parent_pointer = node.parent_pointer ∧
  out.2.pointers.length = node.pointers.length ∧
  (∀ j, j < count → idx + j < node.pointers.length →
    out.2.pointers.getD (idx + j) 0 = st.m_next_node_ptr + j) ∧
  (∀ i2, (∀ j, j < count → i2 ≠ idx + j) →
    out.2.pointers.getD i2 0 = node.pointers.getD i2 0)

theorem fulfill_out_step (st st2 : btree_sorted_keys_inserter) (node : btree_node)
    (leafs : Bool) (idx count : Nat) (out : btree_sorted_keys_inserter × btree_node)
    (hA : st2.m_next_node_ptr = st.m_next_node_ptr + 1)
    (hB : ∀ p, st2.disk p = disk_write st.disk ({ mk_node st.order node.this_pointer with
      this_pointer := st.m_next_node_ptr, keys_count := 0, is_leaf := leafs }) p)
    (hC : st2.m_nodes_created_during_rebalancing =
      st.m_next_node_ptr :: st.m_nodes_created_during_rebalancing)
    (hD : st2.order = st.order)
    (hE : st2.m_tree_height = st.m_tree_height)
    (hF : st2.m_root_ptr = st.m_root_ptr)
    (hG : st2.root_ptr_written = st.root_ptr_written)
    (hH : st2.m_current_path = st.m_current_path)
    (hI : st2.m_keys_took_by_provider = st.m_keys_took_by_provider)
    (hout : fulfill_out st2 { node with pointers := node.pointers.set idx st.m_next_node_ptr }
      leafs (idx + 1) count out) :
    fulfill_out st node leafs idx (count + 1) out := by
  obtain ⟨o1, o2, o3, o4, o5, o6, o7, o8, o9, o10, o11, o12, o13, o14, o15, o16, o17, o18⟩ :=
    hout
  refine ⟨?_, ?_, ?_, ?_, ?_, ?_, ?_, ?_, ?_, ?_, ?_, ?_, ?_, ?_, ?_, ?_, ?_, ?_⟩
  · rw [o1, hA]; omega
  · rw [o2, hD]
  · rw [o3, hE]
  · rw [o4, hF]
  · rw [o5, hG]
  · rw [o6, hH]
  · rw [o7, hI]
  · intro q
    rw [o8 q, hC, hA]
    simp only [List.mem_cons]
    constructor
    · rintro ((rfl | hq) | ⟨j, hj, rfl⟩)
      · exact Or.inr ⟨0, by omega, by omega⟩
      · exact Or.inl hq
      · exact Or.inr ⟨j + 1, by omega, by omega⟩
    · rintro (hq | ⟨j, hj, rfl⟩)
      · exact Or.inl (Or.inr hq)
      · match j with
        | 0 => exact Or.inl (Or.inl (by omega))
        | j2 + 1 => exact Or.inr ⟨j2, by omega, by omega⟩
  · intro j hj
    match j with
    | 0 =>
      have hne : ∀ j2, j2 < count → st.m_next_node_ptr + 0 ≠ st2.m_next_node_ptr + j2 := by
        intro j2 _
        rw [hA]
        omega
      rw [o10 _ hne, hB]
      simp only [disk_write]
      rw [if_pos (by simp)]
      simp
    | j2 + 1 =>
      have h2 := o9 j2 (by omega)
      rw [hA] at h2
      have haddr : st.m_next_node_ptr + (j2 + 1) = st.m_next_node_ptr + 1 + j2 := by omega
      rw [haddr, h2, hD]
  · intro p hp
    have hne : ∀ j2, j2 < count → p ≠ st2.m_next_node_ptr + j2 := by
      intro j2 hj2
      rw [hA]
      have := hp (j2 + 1) (by omega)
      omega
    rw [o10 p hne, hB]
    simp only [disk_write]
    rw [if_neg (by have := hp 0 (by omega); simpa using this)]
  · rw [o11]
  · rw [o12]
  · rw [o13]
  · rw [o14]
  · rw [o15]
  · rw [o16]
    simp
  · intro j hj hlt
    match j with
    | 0 =>
      have hne : ∀ j2, j2 < count → idx + 0 ≠ idx + 1 + j2 := by intro j2 _; omega
      rw [o18 _ hne]
      show (node.pointers.set idx st.m_next_node_ptr).getD (idx + 0) 0 = _
      have h0 : idx + 0 = idx := by omega
      rw [h0]
      exact getD_set_eq2 _ _ _ _ (by omega)
    | j2 + 1 =>
      have h2 := o17 j2 (by omega) (by simp only [List.length_set]; omega)
      rw [hA] at h2
      have haddr : idx + (j2 + 1) = idx + 1 + j2 := by omega
      rw [haddr, h2]
      omega
  · intro i2 hne
    have hne2 : ∀ j2, j2 < count → i2 ≠ idx + 1 + j2 := by
      intro j2 hj2
      have := hne (j2 + 1) (by omega)
      omega
    rw [o18 i2 hne2]
    show (node.pointers.set idx st.m_next_node_ptr).getD i2 0 = _
    exact getD_set_ne2 _ _ _ _ _ (by have := hne 0 (by omega); omega)

theorem fulfill_children_spec (fuel : Nat) (count : Nat) :
    ∀ (st : btree_sorted_keys_inserter) (node : btree_node) (leafs : Bool) (level idx : Nat),
      st.m_root_ptr < st.m_next_node_ptr →
      fulfill_out st node leafs idx count
        (fulfill_children (fun s p l => create_nodes_to_fulfill_b_tree s p l fuel)
          st node leafs level idx count) := by
  induction count with
  | zero =>
    intro st node leafs level idx hroot
    refine ⟨by simp [fulfill_children], rfl, rfl, rfl, rfl, rfl, rfl, ?_, ?_, ?_,
      rfl, rfl, rfl, rfl, rfl, rfl, ?_, ?_⟩
    · intro q
      simp [fulfill_children]
    · intro j hj
      omega
    · intro p hp
      rfl
    · intro j hj
      omega
    · intro i2 h2
      rfl
  | succ count ih =>
    intro st node leafs level idx hroot
    cases leafs with
    | true =>
      have key := ih { st with
          m_next_node_ptr := st.m_next_node_ptr + 1
          m_nodes_created_during_rebalancing :=
            st.m_next_node_ptr :: st.m_nodes_created_during_rebalancing
          disk := disk_write st.disk { mk_node st.order node.this_pointer with
            this_pointer := st.m_next_node_ptr, keys_count := 0, is_leaf := true } }
        { node with pointers := node.pointers.set idx st.m_next_node_ptr }
        true level (idx + 1)
        (by show st.m_root_ptr < st.m_next_node_ptr + 1; omega)
      exact fulfill_out_step st { st with
          m_next_node_ptr := st.m_next_node_ptr + 1
          m_nodes_created_during_rebalancing :=
            st.m_next_node_ptr :: st.m_nodes_created_during_rebalancing
          disk := disk_write st.disk { mk_node st.order node.this_pointer with
            this_pointer := st.m_next_node_ptr, keys_count := 0, is_leaf := true } }
        node true idx count _ rfl (fun p => rfl) rfl rfl rfl rfl rfl rfl rfl key
    | false =>
      obtain ⟨f1, f2, f3, f4, f5, f6, f7, f8, f9⟩ := fulfill_fresh_child
        { st with
          m_next_node_ptr := st.m_next_node_ptr + 1
          m_nodes_created_during_rebalancing :=
            st.m_next_node_ptr :: st.m_nodes_created_during_rebalancing
          disk := disk_write st.disk { mk_node st.order node.this_pointer with
            this_pointer := st.m_next_node_ptr, keys_count := 0, is_leaf := false } }
        st.m_next_node_ptr (level + 1) fuel
        ({ mk_node st.order node.this_pointer with
          this_pointer := st.m_next_node_ptr, keys_count := 0, is_leaf := false })
        (by simp [disk_write]) rfl rfl (mk_node_children_count st.order node.this_pointer)
        (by show st.m_next_node_ptr ≠ st.m_root_ptr; omega)
      have key := ih (create_nodes_to_fulfill_b_tree { st with
          m_next_node_ptr := st.m_next_node_ptr + 1
          m_nodes_created_during_rebalancing :=
            st.m_next_node_ptr :: st.m_nodes_created_during_rebalancing
          disk := disk_write st.disk { mk_node st.order node.this_pointer with
            this_pointer := st.m_next_node_ptr, keys_count := 0, is_leaf := false } }
          st.m_next_node_ptr (level + 1) fuel)
        { node with pointers := node.pointers.set idx st.m_next_node_ptr }
        false level (idx + 1)
        (by rw [f5, f2]; show st.m_root_ptr < st.m_next_node_ptr + 1; omega)
      exact fulfill_out_step st (create_nodes_to_fulfill_b_tree { st with
          m_next_node_ptr := st.m_next_node_ptr + 1
          m_nodes_created_during_rebalancing :=
            st.m_next_node_ptr :: st.m_nodes_created_during_rebalancing
          disk := disk_write st.disk { mk_node st.order node.this_pointer with
            this_pointer := st.m_next_node_ptr, keys_count := 0, is_leaf := false } }
          st.m_next_node_ptr (level + 1) fuel)
        node false idx count _ (by rw [f2]) (fun p => f1 p)
        (by rw [f9]) (by rw [f3]) (by rw [f4]) (by rw [f5]) (by rw [f6]) (by rw [f7])
        (by rw [f8]) key

theorem disk_read_this (d : NodeDisk) (p : Nat) (n : btree_node)
    (h : disk_read d p = some n) : n.this_pointer = p := by
  simp only [disk_read] at h
  cases hd : d p with
  | none => rw [hd] at h; simp at h
  | some x =>
    rw [hd] at h
    simp only [Option.map_some', Option.some.injEq] at h
    rw [← h]

theorem countP_eq_of_prefix (P : Nat → Bool) :
    ∀ (l : List Nat) (k : Nat), k ≤ l.length →
      (∀ i, (hi : i < l.length) → (P (l.get ⟨i, hi⟩) = true ↔ i < k)) →
      l.countP P = k := by
  intro l
  induction l with
  | nil =>
    intro k hk _
    simp at hk
    simp [hk, List.countP_nil]
  | cons a t ih =>
    intro k hk hiff
    cases k with
    | zero =>
      have ha : ¬(P a = true) := by
        have h0 := hiff 0 (by simp)
        simp at h0
        simp [h0]
      have ht : t.countP P = 0 := by
        apply ih 0 (by omega)
        intro i hi
        have h2 := hiff (i + 1) (by simpa using by omega)
        simpa using h2
      rw [List.countP_cons, ht]
      simp [ha]
    | succ k2 =>
      have ha : P a = true := by
        have h0 := hiff 0 (by simp)
        simp at h0
        exact h0
      have ht : t.countP P = k2 := by
        apply ih k2 (by simpa using hk)
        intro i hi
        have h2 := hiff (i + 1) (by simpa using by omega)
        simp at h2
        simpa using h2
      rw [List.countP_cons, ht]
      simp [ha]

/-- C3 (amended): the fulfillment pass.  At the root only the rightmost
descent is visited.  At a non-root interior node whose keys_count (the
guard the code actually uses) is below m + 1 and that has at least one
live child, fresh empty children are allocated at slots
children_count - 1, ..., m — overwriting the last existing live child
pointer — so that exactly the first m + 1 slots are live afterwards; each
fresh child is registered in the created-during-rebalance set and written
as an empty node whose is_leaf flag is set exactly when its level equals
the tree height (the recursion into non-leaf fresh children rewrites them
unchanged, since their own child count is 0 and the unsigned start index
underflows).  When the node has no live child at all, the same underflow
skips the loop entirely and the node is rewritten as read. -/
theorem c3_fulfillment_pass_amended (st : btree_sorted_keys_inserter)
    (ptr level fuel : Nat) (node : btree_node)
    (hread : disk_read st.disk ptr = some node) :
    (ptr = st.m_root_ptr → node.is_leaf = false →
      create_nodes_to_fulfill_b_tree st ptr level (fuel + 1) =
        create_nodes_to_fulfill_b_tree st node.rightmost_pointer (level + 1) fuel) ∧
    (ptr ≠ st.m_root_ptr → node.is_leaf = false →
      node.keys_count < expected_min_number_of_keys st.order + 1 →
      1 ≤ node.children_count →
      node.children_count ≤ expected_min_number_of_keys st.order + 1 →
      st.m_root_ptr < st.m_next_node_ptr →
      ptr < st.m_next_node_ptr →
      ∀ count, count = expected_min_number_of_keys st.order + 1 -
        (node.children_count - 1) →
      (create_nodes_to_fulfill_b_tree st ptr level (fuel + 1)).m_next_node_ptr =
        st.m_next_node_ptr + count ∧
      (∀ j, j < count → (st.m_next_node_ptr + j) ∈
        (create_nodes_to_fulfill_b_tree st ptr level
          (fuel + 1)).m_nodes_created_during_rebalancing) ∧
      (∀ j, j < count →
        (create_nodes_to_fulfill_b_tree st ptr level (fuel + 1)).disk
          (st.m_next_node_ptr + j) =
        some { mk_node st.order ptr with
          this_pointer := st.m_next_node_ptr + j
          keys_count := 0
          is_leaf := (level + 1 == st.m_tree_height) }) ∧
      (∀ p, p ≠ ptr → (∀ j, j < count → p ≠ st.m_next_node_ptr + j) →
        (create_nodes_to_fulfill_b_tree st ptr level (fuel + 1)).disk p = st.disk p) ∧
      (∃ node2,
        (create_nodes_to_fulfill_b_tree st ptr level (fuel + 1)).disk ptr = some node2 ∧
        node2.keys = node.keys ∧
        node2.keys_count = node.keys_count ∧
        node2.is_leaf = node.is_leaf ∧
        node2.parent_pointer = node.parent_pointer ∧
        node2.pointers.length = node.pointers.length ∧
        (∀ j, j < count → node.children_count - 1 + j < node.pointers.length →
          node2.pointers.getD (node.children_count - 1 + j) 0 = st.m_next_node_ptr + j) ∧
        (∀ i, (∀ j, j < count → i ≠ node.children_count - 1 + j) →
          node2.pointers.getD i 0 = node.pointers.getD i 0) ∧
        ((∀ i, (hi : i < node.pointers.length) →
            ((node.pointers.get ⟨i, hi⟩ ≠ k_unused_pointer) ↔ i < node.children_count)) →
          node.pointers.length = 2 * st.order + 1 →
          st.m_next_node_ptr + count ≤ k_unused_pointer →
          node2.children_count = expected_min_number_of_keys st.order + 1))) ∧
    (ptr ≠ st.m_root_ptr → node.is_leaf = false →
      node.keys_count < expected_min_number_of_keys st.order + 1 →
      node.children_count = 0 →
      create_nodes_to_fulfill_b_tree st ptr level (fuel + 1) =
        { st with disk := disk_write st.disk node }) := by
  have hthis := disk_read_this st.disk ptr node hread
  refine ⟨?_, ?_, ?_⟩
  · intro hroot hleaf
    simp only [create_nodes_to_fulfill_b_tree]
    rw [hread]
    simp [hleaf, hroot]
  · intro hnroot hleaf hkc hcc1 hccle hroot hptrlt count hcount
    have hres := fulfill_children_spec fuel
      (expected_min_number_of_keys st.order + 1 - (node.children_count - 1))
      st node (level + 1 == st.m_tree_height) level (node.children_count - 1) hroot
    obtain ⟨o1, o2, o3, o4, o5, o6, o7, o8, o9, o10, o11, o12, o13, o14, o15, o16, o17, o18⟩ :=
      hres
    have hunf : create_nodes_to_fulfill_b_tree st ptr level (fuel + 1) =
        { (fulfill_children (fun s p l => create_nodes_to_fulfill_b_tree s p l fuel)
            st node (level + 1 == st.m_tree_height) level (node.children_count - 1)
            (expected_min_number_of_keys st.order + 1 - (node.children_count - 1))).1 with
          disk := disk_write
            (fulfill_children (fun s p l => create_nodes_to_fulfill_b_tree s p l fuel)
              st node (level + 1 == st.m_tree_height) level (node.children_count - 1)
              (expected_min_number_of_keys st.order + 1 - (node.children_count - 1))).1.disk
            (fulfill_children (fun s p l => create_nodes_to_fulfill_b_tree s p l fuel)
              st node (level + 1 == st.m_tree_height) level (node.children_count - 1)
              (expected_min_number_of_keys st.order + 1 - (node.children_count - 1))).2 } := by
      simp only [create_nodes_to_fulfill_b_tree]
      rw [hread]
      simp only [hleaf, Bool.false_eq_true, if_false, if_neg hnroot,
        if_neg (by omega : ¬(expected_min_number_of_keys st.order + 1 ≤ node.keys_count)),
        if_neg (by omega : ¬(node.children_count = 0))]
    subst hcount
    refine ⟨?_, ?_, ?_, ?_, ?_⟩
    · rw [hunf]
      exact o1
    · intro j hj
      rw [hunf]
      exact (o8 _).mpr (Or.inr ⟨j, hj, rfl⟩)
    · intro j hj
      rw [hunf]
      simp only [disk_write]
      rw [if_neg (by rw [o14, hthis]; omega)]
      rw [o9 j hj, hthis]
    · intro p hp hfresh
      rw [hunf]
      simp only [disk_write]
      rw [if_neg (by rw [o14, hthis]; exact hp)]
      exact o10 p hfresh
    · refine ⟨_, ?_, o11, o12, o13, o15, o16, ?_, o18, ?_⟩
      · rw [hunf]
        simp only [disk_write]
        rw [if_pos (by rw [o14, hthis])]
      · intro j hj hlt
        exact o17 j hj hlt
      · intro hshape hlen hfreshne
        show (fulfill_children (fun s p l => create_nodes_to_fulfill_b_tree s p l fuel)
          st node (level + 1 == st.m_tree_height) level (node.children_count - 1)
          (expected_min_number_of_keys st.order + 1 -
            (node.children_count - 1))).2.pointers.countP
            (fun p => p != k_unused_pointer) = expected_min_number_of_keys st.order + 1
        apply countP_eq_of_prefix
        · rw [o16, hlen]
          show expected_min_number_of_keys st.order + 1 ≤ 2 * st.order + 1
          unfold expected_min_number_of_keys
          omega
        · intro i hi
          have hi2 : i < node.pointers.length := by rw [← o16]; exact hi
          have hget : (fulfill_children (fun s p l => create_nodes_to_fulfill_b_tree s p l fuel)
              st node (level + 1 == st.m_tree_height) level (node.children_count - 1)
              (expected_min_number_of_keys st.order + 1 -
                (node.children_count - 1))).2.pointers.get ⟨i, hi⟩ =
              (fulfill_children (fun s p l => create_nodes_to_fulfill_b_tree s p l fuel)
              st node (level + 1 == st.m_tree_height) level (node.children_count - 1)
              (expected_min_number_of_keys st.order + 1 -
                (node.children_count - 1))).2.pointers.getD i 0 := by
            rw [List.getD_eq_getElem _ _ hi]
            simp
          rw [hget]
          by_cases hin : node.children_count - 1 ≤ i ∧
              i < expected_min_number_of_keys st.order + 1
          · have hj1 : i - (node.children_count - 1) <
                expected_min_number_of_keys st.order + 1 - (node.children_count - 1) := by
              omega
            have h17 := o17 (i - (node.children_count - 1)) hj1 (by omega)
            rw [show node.children_count - 1 + (i - (node.children_count - 1)) = i
              from by omega] at h17
            rw [h17]
            simp only [bne_iff_ne, ne_eq]
            constructor
            · intro _
              omega
            · intro _
              have : st.m_next_node_ptr + (i - (node.children_count - 1)) < k_unused_pointer := by
                omega
              omega
          · have hout : ∀ j, j < expected_min_number_of_keys st.order + 1 -
                (node.children_count - 1) → i ≠ node.children_count - 1 + j := by
              intro j hj
              omega
            rw [o18 i hout]
            have hs := hshape i hi2
            rw [show node.pointers.get ⟨i, hi2⟩ = node.pointers.getD i 0 from by
              rw [List.getD_eq_getElem _ _ hi2]; simp] at hs
            simp only [bne_iff_ne]
            rw [hs]
            omega
  · intro hnroot hleaf hkc hcc0
    simp only [create_nodes_to_fulfill_b_tree]
    rw [hread]
    simp only [hleaf, Bool.false_eq_true, if_false, if_neg hnroot,
      if_neg (by omega : ¬(expected_min_number_of_keys st.order + 1 ≤ node.keys_count)),
      if_pos hcc0]

/-- C3 (amended, witness): in the c1_keys build before fulfillment, node 5
is a non-root interior node with keys_count 0 < m + 1 and a single live
child; the amended fulfillment characterization applies and yields that the
pass allocates exactly two fresh nodes there. -/
theorem c3_fulfillment_pass_amended_witness :
    disk_read c3_pre.disk 5 =
      some { is_leaf := false
             keys_count := 0
             pointers := [6, 4294967295, 4294967295]
             keys := [List.replicate 20 0, List.replicate 20 0]
             parent_pointer := 4
             this_pointer := 5 } ∧
    (create_nodes_to_fulfill_b_tree c3_pre 5 1 4).m_next_node_ptr =
      c3_pre.m_next_node_ptr + 2 := by
  refine ⟨by decide, ?_⟩
  exact ((c3_fulfillment_pass_amended c3_pre 5 1 3
    { is_leaf := false
      keys_count := 0
      pointers := [6, 4294967295, 4294967295]
      keys := [List.replicate 20 0, List.replicate 20 0]
      parent_pointer := 4
      this_pointer := 5 } (by decide)).2.1 (by decide) (by decide) (by decide)
    (by decide) (by decide) (by decide) (by decide) 2 (by decide)).1

/-- The identifiers of the nodes on the in-memory rightmost path. -/
def path_ids (st : btree_sorted_keys_inserter) : List Nat :=
  st.m_current_path.map btree_node.this_pointer

/-- The builder states before finalization begins: the constructor followed
by any sequence of insert_sorted calls. -/
inductive Reachable (m : Nat) : btree_sorted_keys_inserter → Prop
  | init : Reachable m (mk_inserter m)
  | step (st : btree_sorted_keys_inserter) (key : sha1_t) :
      Reachable m st → Reachable m (insert_sorted st key)

/-- The builder invariant backing the frame property of C8: every flushed
record sits below the allocation counter, and the path identifiers are
below the counter, unflushed, and pairwise distinct. -/
def inserter_inv (st : btree_sorted_keys_inserter) : Prop :=
  (∀ p, st.disk p ≠ none → p < st.m_next_node_ptr) ∧
  (∀ q ∈ path_ids st, q < st.m_next_node_ptr) ∧
  (∀ q ∈ path_ids st, st.disk q = none) ∧
  (path_ids st).Nodup

/-- insert does not move the node: only keys and keys_count change. -/
theorem insert_this (n : btree_node) (k : sha1_t) :
    (n.insert k).this_pointer = n.this_pointer := rfl

/-- add_child changes neither the store nor the height nor the header
flag. -/
theorem add_child_fields (st : btree_sorted_keys_inserter) (b : Bool) :
    (add_child st b).disk = st.disk ∧
    (add_child st b).m_tree_height = st.m_tree_height ∧
    (add_child st b).root_ptr_written = st.root_ptr_written := by
  cases hp : st.m_current_path with
  | nil => simp [add_child, hp]
  | cons parent rest => simp [add_child, hp]

/-- create_children_till_leaf changes neither the store nor the height nor
the header flag: it only materializes in-memory path nodes. -/
theorem create_children_fields (level : Nat) :
    ∀ st : btree_sorted_keys_inserter,
    (create_children_till_leaf st level).disk = st.disk ∧
    (create_children_till_leaf st level).m_tree_height = st.m_tree_height ∧
    (create_children_till_leaf st level).root_ptr_written = st.root_ptr_written := by
  induction level with
  | zero => intro st; exact add_child_fields st true
  | succ l ih =>
    intro st
    obtain ⟨h1, h2, h3⟩ := ih (add_child st false)
    obtain ⟨g1, g2, g3⟩ := add_child_fields st false
    simp only [create_children_till_leaf]
    exact ⟨by rw [h1, g1], by rw [h2, g2], by rw [h3, g3]⟩

/-- add_child preserves the builder invariant. -/
theorem add_child_inv (st : btree_sorted_keys_inserter) (b : Bool)
    (h : inserter_inv st) : inserter_inv (add_child st b) := by
  obtain ⟨h1, h2, h3, h4⟩ := h
  cases hp : st.m_current_path with
  | nil =>
    simp only [add_child, hp]
    exact ⟨h1, h2, h3, h4⟩
  | cons parent rest =>
    simp only [path_ids, hp, List.map_cons, List.mem_cons] at h2 h3 h4
    simp only [add_child, hp]
    refine ⟨?_, ?_, ?_, ?_⟩
    · intro p hp2
      show p < st.m_next_node_ptr + 1
      have := h1 p hp2
      omega
    · intro q hq
      show q < st.m_next_node_ptr + 1
      simp only [path_ids, List.map_cons, List.mem_cons] at hq
      rcases hq with rfl | rfl | hq
      · omega
      · have := h2 parent.this_pointer (Or.inl rfl)
        omega
      · have := h2 q (Or.inr hq)
        omega
    · intro q hq
      show st.disk q = none
      simp only [path_ids, List.map_cons, List.mem_cons] at hq
      rcases hq with rfl | rfl | hq
      · by_cases hd : st.disk st.m_next_node_ptr = none
        · exact hd
        · exact absurd (h1 _ hd) (lt_irrefl _)
      · exact h3 parent.this_pointer (Or.inl rfl)
      · exact h3 q (Or.inr hq)
    · show (List.map btree_node.this_pointer
        ({ mk_node st.order parent.this_pointer with
            this_pointer := st.m_next_node_ptr, keys_count := 0, is_leaf := b } ::
          { parent with
            pointers := parent.pointers.set parent.keys_count st.m_next_node_ptr } ::
          rest)).Nodup
      simp only [List.map_cons]
      refine List.Nodup.cons ?_ ?_
      · intro hmem
        simp only [List.mem_cons] at hmem
        rcases hmem with he | hmem
        · have := h2 st.m_next_node_ptr (Or.inl he)
          omega
        · have := h2 st.m_next_node_ptr (Or.inr hmem)
          omega
      · exact h4

/-- create_children_till_leaf preserves the builder invariant. -/
theorem create_children_inv (level : Nat) :
    ∀ st : btree_sorted_keys_inserter, inserter_inv st →
    inserter_inv (create_children_till_leaf st level) := by
  induction level with
  | zero => intro st h; exact add_child_inv st true h
  | succ l ih =>
    intro st h
    simp only [create_children_till_leaf]
    exact ih (add_child st false) (add_child_inv st false h)

/-- split_root_and_grow preserves the builder invariant. -/
theorem split_root_and_grow_inv (st : btree_sorted_keys_inserter)
    (sha1 : sha1_t) (level : Nat) (h : inserter_inv st) :
    inserter_inv (split_root_and_grow st sha1 level) := by
  obtain ⟨h1, h2, h3, h4⟩ := h
  cases hp : st.m_current_path with
  | nil =>
    simp only [split_root_and_grow, hp]
    exact ⟨h1, h2, h3, h4⟩
  | cons root rest =>
    simp only [path_ids, hp, List.map_cons, List.mem_cons] at h2 h3 h4
    simp only [split_root_and_grow, hp]
    have hinner : inserter_inv { st with
        m_next_node_ptr := st.m_next_node_ptr + 1
        disk := disk_write st.disk { root with parent_pointer := st.m_next_node_ptr }
        m_current_path :=
          { (mk_node st.order k_unused_pointer).insert sha1 with
            pointers := ((mk_node st.order k_unused_pointer).insert sha1).pointers.set 0
              root.this_pointer
            this_pointer := st.m_next_node_ptr
            is_leaf := false } :: rest } := by
      refine ⟨?_, ?_, ?_, ?_⟩
      · intro p hp2
        show p < st.m_next_node_ptr + 1
        have hp3 : disk_write st.disk
            { root with parent_pointer := st.m_next_node_ptr } p ≠ none := hp2
        simp only [disk_write] at hp3
        by_cases he : p = root.this_pointer
        · have := h2 root.this_pointer (Or.inl rfl)
          omega
        · rw [if_neg he] at hp3
          have := h1 p hp3
          omega
      · intro q hq
        show q < st.m_next_node_ptr + 1
        simp only [path_ids, List.map_cons, List.mem_cons] at hq
        rcases hq with rfl | hq
        · omega
        · have := h2 q (Or.inr hq)
          omega
      · intro q hq
        show disk_write st.disk
          { root with parent_pointer := st.m_next_node_ptr } q = none
        simp only [path_ids, List.map_cons, List.mem_cons] at hq
        simp only [disk_write]
        rcases hq with rfl | hq
        · rw [if_neg (by have := h2 root.this_pointer (Or.inl rfl); omega)]
          by_cases hd : st.disk st.m_next_node_ptr = none
          · exact hd
          · exact absurd (h1 _ hd) (lt_irrefl _)
        · have hne : q ≠ root.this_pointer := by
            have hnm := (List.nodup_cons.mp h4).1
            intro he
            exact hnm (he ▸ hq)
          rw [if_neg hne]
          exact h3 q (Or.inr hq)
      · show (List.map btree_node.this_pointer
          ({ (mk_node st.order k_unused_pointer).insert sha1 with
              pointers := ((mk_node st.order k_unused_pointer).insert sha1).pointers.set 0
                root.this_pointer
              this_pointer := st.m_next_node_ptr
              is_leaf := false } :: rest)).Nodup
        simp only [List.map_cons]
        refine List.Nodup.cons ?_ (List.nodup_cons.mp h4).2
        intro hmem
        have := h2 st.m_next_node_ptr (Or.inr hmem)
        omega
    have h5 := create_children_inv level _ hinner
    obtain ⟨g1, g2, g3, g4⟩ := h5
    exact ⟨g1, g2, g3, g4⟩

/-- split_node_fueled preserves the builder invariant. -/
theorem split_node_fueled_inv (fuel : Nat) :
    ∀ (st : btree_sorted_keys_inserter) (sha1 : sha1_t) (level : Nat),
    inserter_inv st → inserter_inv (split_node_fueled fuel st sha1 level) := by
  induction fuel with
  | zero =>
    intro st sha1 level h
    simp only [split_node_fueled]
    exact h
  | succ fuel ih =>
    intro st sha1 level h
    obtain ⟨h1, h2, h3, h4⟩ := h
    cases hp : st.m_current_path with
    | nil =>
      simp only [split_node_fueled, hp]
      exact ⟨h1, h2, h3, h4⟩
    | cons node rest =>
      cases hr : rest with
      | nil =>
        subst hr
        simp only [split_node_fueled, hp]
        exact split_root_and_grow_inv st sha1 level ⟨h1, h2, h3, h4⟩
      | cons parent rest2 =>
        subst hr
        simp only [path_ids, hp, List.map_cons, List.mem_cons] at h2 h3 h4
        simp only [split_node_fueled, hp]
        have hfresh : ∀ q, q = parent.this_pointer ∨
            q ∈ rest2.map btree_node.this_pointer → q ≠ node.this_pointer := by
          intro q hq he
          have hnm := (List.nodup_cons.mp h4).1
          rcases hq with rfl | hq
          · exact hnm (List.mem_cons.mpr (Or.inl he.symm))
          · exact hnm (List.mem_cons.mpr (Or.inr (he ▸ hq)))
        have hinner : ∀ path2, path_ids { st with
              disk := disk_write st.disk node
              m_current_path := path2 } = path2.map btree_node.this_pointer →
            (∀ q ∈ path2.map btree_node.this_pointer,
              q = parent.this_pointer ∨ q ∈ rest2.map btree_node.this_pointer) →
            (path2.map btree_node.this_pointer).Nodup →
            inserter_inv { st with
              disk := disk_write st.disk node
              m_current_path := path2 } := by
          intro path2 hpi hsub hnd
          refine ⟨?_, ?_, ?_, ?_⟩
          · intro p hp2
            show p < st.m_next_node_ptr
            have hp3 : disk_write st.disk node p ≠ none := hp2
            simp only [disk_write] at hp3
            by_cases he : p = node.this_pointer
            · subst he
              exact h2 node.this_pointer (Or.inl rfl)
            · rw [if_neg he] at hp3
              exact h1 p hp3
          · intro q hq
            show q < st.m_next_node_ptr
            rw [hpi] at hq
            exact h2 q (Or.inr (hsub q hq))
          · intro q hq
            rw [hpi] at hq
            show disk_write st.disk node q = none
            simp only [disk_write]
            rw [if_neg (hfresh q (hsub q hq))]
            exact h3 q (Or.inr (hsub q hq))
          · rw [hpi]
            exact hnd
        by_cases hful : parent.is_full st.order
        · rw [if_pos hful]
          refine ih _ sha1 (level + 1) (hinner (parent :: rest2) rfl ?_ ?_)
          · intro q hq
            simpa using hq
          · exact (List.nodup_cons.mp h4).2
        · rw [if_neg hful]
          refine create_children_inv level _ (hinner (parent.insert sha1 :: rest2) rfl ?_ ?_)
          · intro q hq
            simp only [List.map_cons, List.mem_cons, insert_this] at hq
            simpa using hq
          · simp only [List.map_cons, insert_this]
            exact (List.nodup_cons.mp h4).2

/-- insert_sorted preserves the builder invariant. -/
theorem insert_sorted_inv (st : btree_sorted_keys_inserter) (key : sha1_t)
    (h : inserter_inv st) : inserter_inv (insert_sorted st key) := by
  obtain ⟨h1, h2, h3, h4⟩ := h
  cases hp : st.m_current_path with
  | nil =>
    simp only [insert_sorted, hp]
    exact ⟨h1, h2, h3, h4⟩
  | cons node rest =>
    simp only [insert_sorted, hp]
    by_cases hful : node.is_full st.order
    · rw [if_pos hful]
      exact split_node_fueled_inv _ st key 0 ⟨h1, h2, h3, h4⟩
    · rw [if_neg hful]
      simp only [path_ids, hp, List.map_cons, List.mem_cons] at h2 h3 h4
      refine ⟨h1, ?_, ?_, ?_⟩
      · intro q hq
        show q < st.m_next_node_ptr
        simp only [path_ids, List.map_cons, List.mem_cons] at hq
        exact h2 q (by simpa [btree_node.push_back] using hq)
      · intro q hq
        show st.disk q = none
        simp only [path_ids, List.map_cons, List.mem_cons] at hq
        exact h3 q (by simpa [btree_node.push_back] using hq)
      · show (List.map btree_node.this_pointer (node.push_back key :: rest)).Nodup
        simp only [List.map_cons]
        have : (node.push_back key).this_pointer = node.this_pointer := rfl
        rw [this]
        exact h4

/-- Every state reached by the constructor and insert_sorted calls
satisfies the builder invariant. -/
theorem reachable_inv (m : Nat) (st : btree_sorted_keys_inserter)
    (h : Reachable m st) : inserter_inv st := by
  induction h with
  | init =>
    refine ⟨?_, ?_, ?_, ?_⟩
    · intro p hp
      exact absurd rfl hp
    · intro q hq
      simp only [path_ids, mk_inserter, List.map_cons, List.map_nil,
        List.mem_cons, List.not_mem_nil, or_false] at hq
      subst hq
      exact Nat.zero_lt_one
    · intro q hq
      rfl
    · simp [path_ids, mk_inserter]
  | step st2 key h2 ih =>
    exact insert_sorted_inv st2 key ih

/-- split_root_and_grow flushes exactly the old root record (with its
parent pointer redirected to the new root), sets the header root-pointer
flag, and increments the height. -/
theorem split_root_and_grow_facts (st : btree_sorted_keys_inserter)
    (sha1 : sha1_t) (level : Nat) (node : btree_node) (rest : List btree_node)
    (hp : st.m_current_path = node :: rest) :
    (split_root_and_grow st sha1 level).disk =
      disk_write st.disk { node with parent_pointer := st.m_next_node_ptr } ∧
    (split_root_and_grow st sha1 level).root_ptr_written = true ∧
    (split_root_and_grow st sha1 level).m_tree_height = st.m_tree_height + 1 := by
  obtain ⟨hd, hh, hw⟩ := create_children_fields level
    { st with
      m_next_node_ptr := st.m_next_node_ptr + 1
      disk := disk_write st.disk { node with parent_pointer := st.m_next_node_ptr }
      m_current_path :=
        { (mk_node st.order k_unused_pointer).insert sha1 with
          pointers := ((mk_node st.order k_unused_pointer).insert sha1).pointers.set 0
            node.this_pointer
          this_pointer := st.m_next_node_ptr
          is_leaf := false } :: rest }
  simp only [split_root_and_grow, hp]
  refine ⟨hd, trivial, ?_⟩
  rw [hh]

/-- Frame property of split_node_fueled: previously flushed records are
preserved, every changed record identifier was on the entry path, and the
header root-pointer region is touched only together with a height
increment (root growth). -/
theorem split_node_frame (fuel : Nat) :
    ∀ (st : btree_sorted_keys_inserter) (sha1 : sha1_t) (level : Nat),
    (∀ q ∈ path_ids st, st.disk q = none) →
    (path_ids st).Nodup →
    (∀ p r, st.disk p = some r →
      (split_node_fueled fuel st sha1 level).disk p = some r) ∧
    (∀ q, (split_node_fueled fuel st sha1 level).disk q ≠ st.disk q →
      q ∈ path_ids st) ∧
    ((split_node_fueled fuel st sha1 level).root_ptr_written = st.root_ptr_written ∨
      ((split_node_fueled fuel st sha1 level).root_ptr_written = true ∧
        (split_node_fueled fuel st sha1 level).m_tree_height = st.m_tree_height + 1)) := by
  induction fuel with
  | zero =>
    intro st sha1 level hnone hnd
    simp only [split_node_fueled]
    exact ⟨fun p r h => h, fun q hq => absurd rfl hq, Or.inl trivial⟩
  | succ fuel ih =>
    intro st sha1 level hnone hnd
    cases hp : st.m_current_path with
    | nil =>
      simp only [split_node_fueled, hp]
      exact ⟨fun p r h => h, fun q hq => absurd rfl hq, Or.inl trivial⟩
    | cons node rest =>
      have hmem0 : node.this_pointer ∈ path_ids st := by
        simp [path_ids, hp]
      have hnone0 : st.disk node.this_pointer = none := hnone _ hmem0
      cases hr : rest with
      | nil =>
        subst hr
        simp only [split_node_fueled, hp]
        obtain ⟨hd, hw, hh⟩ := split_root_and_grow_facts st sha1 level node [] hp
        refine ⟨?_, ?_, Or.inr ⟨hw, hh⟩⟩
        · intro p r hpr
          have hne : p ≠ node.this_pointer := by
            intro he
            rw [he, hnone0] at hpr
            exact Option.noConfusion hpr
          rw [hd]
          show disk_write st.disk
            { node with parent_pointer := st.m_next_node_ptr } p = some r
          simp only [disk_write]
          rw [if_neg hne]
          exact hpr
        · intro q hq
          rw [hd] at hq
          by_cases he : q = node.this_pointer
          · subst he
            exact hmem0
          · exfalso
            refine hq ?_
            show disk_write st.disk
              { node with parent_pointer := st.m_next_node_ptr } q = st.disk q
            simp only [disk_write]
            rw [if_neg he]
      | cons parent rest2 =>
        subst hr
        have hn0 : node.this_pointer ∉ (parent :: rest2).map btree_node.this_pointer := by
          have h0 : (node.this_pointer ::
              (parent :: rest2).map btree_node.this_pointer).Nodup := by
            simpa [path_ids, hp] using hnd
          exact (List.nodup_cons.mp h0).1
        have hndt : ((parent :: rest2).map btree_node.this_pointer).Nodup := by
          have h0 : (node.this_pointer ::
              (parent :: rest2).map btree_node.this_pointer).Nodup := by
            simpa [path_ids, hp] using hnd
          exact (List.nodup_cons.mp h0).2
        simp only [split_node_fueled, hp]
        by_cases hful : parent.is_full st.order
        · rw [if_pos hful]
          have hq2 : ∀ q ∈ (parent :: rest2).map btree_node.this_pointer,
              disk_write st.disk node q = none := by
            intro q hq
            have hne : q ≠ node.this_pointer := fun he => hn0 (he ▸ hq)
            simp only [disk_write]
            rw [if_neg hne]
            refine hnone q ?_
            simp only [path_ids, hp, List.map_cons, List.mem_cons]
            simp only [List.map_cons, List.mem_cons] at hq
            rcases hq with h | h
            · exact Or.inr (Or.inl h)
            · exact Or.inr (Or.inr h)
          obtain ⟨i1, i2, i3⟩ := ih { st with
              disk := disk_write st.disk node
              m_current_path := parent :: rest2 } sha1 (level + 1) hq2 hndt
          refine ⟨?_, ?_, i3⟩
          · intro p r hpr
            have hne : p ≠ node.this_pointer := by
              intro he
              rw [he, hnone0] at hpr
              exact Option.noConfusion hpr
            refine i1 p r ?_
            show disk_write st.disk node p = some r
            simp only [disk_write]
            rw [if_neg hne]
            exact hpr
          · intro q hq
            by_cases he : q = node.this_pointer
            · subst he
              exact hmem0
            · have hst2 : disk_write st.disk node q = st.disk q := by
                simp only [disk_write]
                rw [if_neg he]
              have hq2b : (split_node_fueled fuel { st with
                  disk := disk_write st.disk node
                  m_current_path := parent :: rest2 } sha1 (level + 1)).disk q ≠
                  disk_write st.disk node q := by
                rw [hst2]
                exact hq
              have hmem2 := i2 q hq2b
              simp only [path_ids, hp, List.map_cons, List.mem_cons]
              simp only [path_ids, List.map_cons, List.mem_cons] at hmem2
              exact Or.inr hmem2
        · rw [if_neg hful]
          have hcf := create_children_fields level { st with
              disk := disk_write st.disk node
              m_current_path := parent.insert sha1 :: rest2 }
          refine ⟨?_, ?_, Or.inl hcf.2.2⟩
          · intro p r hpr
            have hne : p ≠ node.this_pointer := by
              intro he
              rw [he, hnone0] at hpr
              exact Option.noConfusion hpr
            rw [hcf.1]
            show disk_write st.disk node p = some r
            simp only [disk_write]
            rw [if_neg hne]
            exact hpr
          · intro q hq
            rw [hcf.1] at hq
            by_cases he : q = node.this_pointer
            · subst he
              exact hmem0
            · exfalso
              refine hq ?_
              show disk_write st.disk node q = st.disk q
              simp only [disk_write]
              rw [if_neg he]

/-- C8: frame property of bulk insertion.  For every builder state
reachable by the constructor and insert_sorted calls (that is, before
finalization begins), a further insert_sorted call preserves every record
already flushed to the store, every record it does change belongs to a
node of the rightmost in-memory path (the node being flushed off it), and
the header root-pointer region is written only on root growth, together
with the height increment. -/
theorem c8_insert_frame (m : Nat) (st : btree_sorted_keys_inserter)
    (key : sha1_t) (hst : Reachable m st) :
    (∀ p r, st.disk p = some r → (insert_sorted st key).disk p = some r) ∧
    (∀ q, (insert_sorted st key).disk q ≠ st.disk q → q ∈ path_ids st) ∧
    ((insert_sorted st key).root_ptr_written = st.root_ptr_written ∨
      ((insert_sorted st key).root_ptr_written = true ∧
        (insert_sorted st key).m_tree_height = st.m_tree_height + 1)) := by
  obtain ⟨h1, h2, h3, h4⟩ := reachable_inv m st hst
  cases hp : st.m_current_path with
  | nil =>
    simp only [insert_sorted, hp]
    exact ⟨fun p r h => h, fun q hq => absurd rfl hq, Or.inl (by trivial)⟩
  | cons node rest =>
    simp only [insert_sorted, hp]
    by_cases hful : node.is_full st.order
    · rw [if_pos hful]
      simp only [split_node]
      exact split_node_frame st.m_current_path.length st key 0 h3 h4
    · rw [if_neg hful]
      exact ⟨fun p r h => h, fun q hq => absurd rfl hq, Or.inl (by trivial)⟩

/-- C8 (witness): with order 1, after inserting the keys 1, 2, 3 the root
has split and the record of node 0 is flushed; inserting the key 4
preserves that record. -/
theorem c8_insert_frame_witness :
    (insert_sorted (insert_sorted (insert_sorted (mk_inserter 1) (be_key 1))
        (be_key 2)) (be_key 3)).disk 0 =
      some { is_leaf := true, keys_count := 2,
             pointers := [4294967295, 4294967295, 4294967295],
             keys := [be_key 1, be_key 2],
             parent_pointer := 1, this_pointer := 0 } ∧
    (insert_sorted (insert_sorted (insert_sorted (insert_sorted (mk_inserter 1)
        (be_key 1)) (be_key 2)) (be_key 3)) (be_key 4)).disk 0 =
      some { is_leaf := true, keys_count := 2,
             pointers := [4294967295, 4294967295, 4294967295],
             keys := [be_key 1, be_key 2],
             parent_pointer := 1, this_pointer := 0 } := by
  refine ⟨by decide, ?_⟩
  exact (c8_insert_frame 1
    (insert_sorted (insert_sorted (insert_sorted (mk_inserter 1) (be_key 1))
      (be_key 2)) (be_key 3))
    (be_key 4)
    (Reachable.step _ _ (Reachable.step _ _ (Reachable.step _ _
      Reachable.init)))).1 0 _ (by decide)
